import Mathlib

/-!
# C_Dictionary.h : an open-addressing table from `double` keys to `int` values

A shallow embedding of `src/C_Dictionary.h`.

Modelling conventions.

* `double` keys are modelled by rationals: every finite double is a rational
  number, and `==` on finite doubles is equality of the numbers they denote
  (`-0.0 == 0.0` included).  NaN and the infinities are not represented.
* `int` values are integers; the table only stores and returns them.
* `unsigned long` is a 64-bit word: the hash, the probe index `i`, the
  perturbation, the sizes and the counts are computed modulo `2 ^ 64` as in
  the source.
* The two bounds `table_first_entry` and `table_last_entry` and the loop
  counters are `int` in the source and natural numbers here; they only ever
  hold slot indices or `table_size`, which fit an `int` for every table of
  less than `2 ^ 31` slots.
* The `used` field is a `Bool`: the code only ever writes `USED` (1) or
  `EMPTY` (0) to it.
* `malloc` returns uninitialised memory in the source and the code never
  initialises a slot array.  The functions `new_dict_on`, `resize_on` and
  `insert_on` take the content of the block that `malloc` hands back as an
  argument (its `used` fields read `USED` or `EMPTY`, as the slots of an array
  that a table freed do).  The functions `new_dict`, `malloc_table`, `resize`,
  `insert` and `update` are the same code under the zero-memory convention:
  every freshly allocated slot array reads all `EMPTY` with key `0.0` and
  value `0`.
* The slot array is a list; a read outside the array (undefined in C) gives a
  fresh slot and a write outside the array is dropped.
* `for (;;)` in `find_insertion_idx` may run forever.  The loop takes a fuel
  argument and answers `none` when the fuel is used up; nothing else in the
  file is partial in that way.
-/

namespace CDict

/-- The number of values of an `unsigned long`. -/
def WORD : Nat := 2 ^ 64

/-- The type `dict_item` of the source (lines 37-41). -/
structure dict_item where
  used : Bool
  first : ℚ
  second : Int
deriving DecidableEq, Repr

def MAX_VAL : ℚ := 2147483648
def MINSIZE : Nat := 8
def PERTURB_SHIFT : Nat := 5
def PERTURB_B : Nat := 1
def RESIZEFACTOR : Nat := 4

/-- The size in bytes of a `dict_item` (an `int`, a `double`, an `int`, with
padding to the alignment of `double`). -/
def SIZEOF_DICT_ITEM : Nat := 24

/-- The type `Dict` of the source (lines 54-58). -/
structure Dict where
  table : List dict_item
  table_size : Nat
  table_used : Nat
  table_first_entry : Nat
  table_last_entry : Nat
deriving DecidableEq, Repr

/-- The content of a slot of freshly allocated memory. -/
def fresh_item : dict_item := ⟨false, 0, 0⟩

/-- The block `malloc (n * sizeof (dict_item))` under the zero-memory
convention: `n` slots that read `EMPTY` with key and value zero.  The byte
count is computed in `size_t`; when it does not fit, the block cannot hold `n`
slots, every access to a slot is undefined and the run ends there (`none`). -/
def malloc_table (n : Nat) : Option (List dict_item) :=
  if n * SIZEOF_DICT_ITEM < WORD then some (List.replicate n fresh_item) else none

/-- The read `table[i]`. -/
def slot (t : List dict_item) (i : Nat) : dict_item := t.getD i fresh_item

/-- The function `new_dict` (lines 60-70) under the zero-memory convention:
the block of line 64 reads all `EMPTY` with key and value zero. -/
def new_dict : Dict :=
  { table := List.replicate MINSIZE fresh_item
    table_size := MINSIZE
    table_used := 0
    table_first_entry := MINSIZE
    table_last_entry := 0 }

/-- The function `new_dict` (lines 60-70) when `malloc` on line 64 hands back
a block with the content `block`; the code does not write to the block. -/
def new_dict_on (block : List dict_item) : Dict :=
  { table := block
    table_size := MINSIZE
    table_used := 0
    table_first_entry := MINSIZE
    table_last_entry := 0 }

/-- The conversion `(long) v` followed by the conversion to `unsigned long`:
truncation toward zero, then reduction modulo `2 ^ 64`. -/
def to_ulong (v : ℚ) : Nat := ((Int.tdiv v.num (v.den : Int)) % (WORD : Int)).toNat

/-- The exponent that `frexp` stores: the `e` with `2 ^ (e - 1) <= |v| < 2 ^ e`
for `v` other than zero, and zero for zero. -/
def frexp_expo (v : ℚ) : Int :=
  if v = 0 then 0
  else
    let a := v.num.natAbs
    let b := v.den
    let la := Nat.log2 a
    let lb := Nat.log2 b
    if lb ≤ la then
      (if a < b * 2 ^ (la - lb) then ((la - lb : Nat) : Int) else ((la - lb : Nat) : Int) + 1)
    else
      (if a * 2 ^ (lb - la) < b then - ((lb - la : Nat) : Int) else - ((lb - la : Nat) : Int) + 1)

/-- The value that `frexp` returns: `v / 2 ^ e` for the exponent above. -/
def frexp_mant (v : ℚ) : ℚ :=
  let e := frexp_expo v
  if 0 ≤ e then v / (2 ^ e.toNat : Nat) else v * (2 ^ (-e).toNat : Nat)

/-- The function `hash_double` (lines 72-88).  `modf` splits `v` into its
integer part (truncation toward zero) and its fractional part.  The value is
that of the source for a whole key from `-2 ^ 63` up to, and without,
`2 ^ 63`, and for a positive key with a fractional part, where the products
with `MAX_VAL` and the difference are exact in `double`.  For a whole key
outside that range, and for a negative key with a fractional part, a
conversion to `long` is out of range in C; the value computed here is one
choice among the undefined ones and need not be the one of a compiled
program. -/
def hash_double (v : ℚ) : Nat :=
  let intpart : ℚ := (Int.tdiv v.num (v.den : Int) : Int)
  let fractpart : ℚ := v - intpart
  if fractpart = 0 then to_ulong intpart
  else
    let expo := frexp_expo v
    let v1 := frexp_mant v * MAX_VAL
    let hipart := to_ulong v1
    let v2 := (v1 - (hipart : ℚ)) * MAX_VAL
    (((hipart : Int) + (to_ulong v2 : Int) + expo * 2 ^ 15) % (WORD : Int)).toNat

/-- The function `track_table_start_end` (lines 90-102). -/
def track_table_start_end (d : Dict) (insertion_idx : Nat) : Dict :=
  if d.table_used = 1 then
    { d with table_first_entry := insertion_idx, table_last_entry := insertion_idx }
  else if insertion_idx > d.table_last_entry then
    { d with table_last_entry := insertion_idx }
  else if insertion_idx < d.table_first_entry then
    { d with table_first_entry := insertion_idx }
  else d

/-- The value of `dict->table_size - 1` as an `unsigned long`. -/
def mask_of (table_size : Nat) : Nat := (table_size + WORD - 1) % WORD

/-- The `for (;;)` loop of `find_insertion_idx` (lines 114-122), entered with
index `i` and perturbation `perturb`; `none` when the fuel runs out. -/
def find_insertion_loop (t : List dict_item) (mask : Nat) (key : ℚ) (freeslot : Nat) :
    Nat → Nat → Nat → Option Nat
  | 0, _, _ => none
  | fuel + 1, i, perturb =>
    let i1 := ((i <<< 2) + i + perturb + 1) % WORD
    let s := slot t (i1 &&& mask)
    if s.used = false ∧ s.first ≠ 0 then
      find_insertion_loop t mask key freeslot fuel i1 (perturb >>> PERTURB_SHIFT)
    else if s.used = false then
      some (if freeslot = WORD - 1 then i1 &&& mask else freeslot)
    else if s.first = key then
      some (i1 &&& mask)
    else
      find_insertion_loop t mask key freeslot fuel i1 (perturb >>> PERTURB_SHIFT)

/-- The function `find_insertion_idx` (lines 104-125). -/
def find_insertion_idx (fuel : Nat) (d : Dict) (key : ℚ) : Option Nat :=
  let hash := hash_double key
  let mask := mask_of d.table_size
  let i := hash &&& mask
  if (slot d.table (i &&& mask)).first = key then some (i &&& mask)
  else
    let freeslot := if (slot d.table (i &&& mask)).used = false then i &&& mask else WORD - 1
    find_insertion_loop d.table mask key freeslot fuel i hash

/-- The `for` loop of `find_idx` (lines 136-142) with `n` rounds left. -/
def find_idx_loop (t : List dict_item) (mask : Nat) (key : ℚ) : Nat → Nat → Nat → Nat
  | 0, i, _ => i &&& mask
  | n + 1, i, perturb =>
    let i1 := (i * 5 + perturb + 1) % WORD
    let s := slot t (i1 &&& mask)
    if s.used = true ∧ s.first = key then i1 &&& mask
    else find_idx_loop t mask key n i1 (perturb >>> PERTURB_SHIFT)

/-- The function `find_idx` (lines 127-144). -/
def find_idx (d : Dict) (key : ℚ) : Nat :=
  let hash := hash_double key
  let mask := mask_of d.table_size
  let i := hash &&& mask
  if (slot d.table (i &&& mask)).first = key then i &&& mask
  else find_idx_loop d.table mask key d.table_size i hash

/-- The function `insert_key_val_pair` (lines 146-161). -/
def insert_key_val_pair (fuel : Nat) (d : Dict) (key : ℚ) (val : Int) : Option Dict :=
  match find_insertion_idx fuel d key with
  | none => none
  | some insertion_idx =>
    if (slot d.table insertion_idx).used ≠ true then
      some (track_table_start_end
        { d with table := d.table.set insertion_idx ⟨true, key, val⟩
                 table_used := (d.table_used + 1) % WORD } insertion_idx)
    else
      some { d with table := d.table.set insertion_idx
                      { slot d.table insertion_idx with second := val } }

/-- The size loop of `resize` (line 168) from the current size `ts`. -/
def new_table_size (newsize : Nat) : Nat → Nat → Nat
  | 0, ts => ts
  | fuel + 1, ts =>
    if ts < newsize ∧ ts > 0 then new_table_size newsize fuel ((ts <<< PERTURB_B) % WORD)
    else ts

/-- The slots `table[first] .. table[last]` in index order: the range of
`for (int i = first; i <= last; ++i)`. -/
def span (t : List dict_item) (first last : Nat) : List dict_item :=
  (List.range' first (last + 1 - first)).map (slot t)

/-- The reinsertion loop of `resize` (lines 180-182) over the old slots. -/
def reinsert (fuel : Nat) : List dict_item → Dict → Option Dict
  | [], d => some d
  | s :: rest, d =>
    if s.used = true then
      match insert_key_val_pair fuel d s.first s.second with
      | none => none
      | some d1 => reinsert fuel rest d1
    else reinsert fuel rest d

/-- The function `resize` (lines 163-186) when `malloc` on line 177 hands
back `block`, whatever it is: a block of `table_size` slots with any content,
or the block of a byte count that wrapped.  `newsize` is the bit pattern of
`_newsize`, which the loop condition compares as an `unsigned long`. -/
def resize_on (block : List dict_item) (fuel : Nat) (d : Dict) (newsize : Nat) : Option Dict :=
  let ts := new_table_size newsize 64 MINSIZE
  reinsert fuel (span d.table d.table_first_entry d.table_last_entry)
    { table := block
      table_size := ts
      table_used := 0
      table_first_entry := ts - 1
      table_last_entry := 0 }

/-- The function `resize` (lines 163-186) under the zero-memory convention;
`newsize` is the bit pattern of `_newsize`, which the loop condition compares
as an `unsigned long`. -/
def resize (fuel : Nat) (d : Dict) (newsize : Nat) : Option Dict :=
  let ts := new_table_size newsize 64 MINSIZE
  match malloc_table ts with
  | none => none
  | some t =>
    reinsert fuel (span d.table d.table_first_entry d.table_last_entry)
      { table := t
        table_size := ts
        table_used := 0
        table_first_entry := ts - 1
        table_last_entry := 0 }

/-- The function `insert` (lines 188-193).  The test
`table_used > table_size * 2.0 / 3.0` is made on `double` values in the
source; for a power of two `table_size` below `2 ^ 52` both sides are exact up
to less than a third, and the test is `3 * table_used > 2 * table_size`. -/
def insert (fuel : Nat) (d : Dict) (key : ℚ) (value : Int) : Option Dict :=
  match insert_key_val_pair fuel d key value with
  | none => none
  | some d1 =>
    if 3 * d1.table_used > 2 * d1.table_size then
      resize fuel d1 ((d1.table_size * RESIZEFACTOR) % WORD)
    else some d1

/-- The function `insert` (lines 188-193) when the `malloc` of a resize, if
there is one, hands back `block`, a block of as many slots as the new
capacity, whose byte count fits a `size_t`. -/
def insert_on (block : List dict_item) (fuel : Nat) (d : Dict) (key : ℚ) (value : Int) :
    Option Dict :=
  match insert_key_val_pair fuel d key value with
  | none => none
  | some d1 =>
    if 3 * d1.table_used > 2 * d1.table_size then
      if block.length = new_table_size ((d1.table_size * RESIZEFACTOR) % WORD) 64 MINSIZE ∧
          block.length * SIZEOF_DICT_ITEM < WORD then
        resize_on block fuel d1 ((d1.table_size * RESIZEFACTOR) % WORD)
      else none
    else some d1

/-- The insertion loop of `update` (lines 200-203) over the slots of `from`. -/
def update_loop (fuel : Nat) : List dict_item → Dict → Option Dict
  | [], d => some d
  | s :: rest, d =>
    if s.used = true then
      match insert fuel d s.first s.second with
      | none => none
      | some d1 => update_loop fuel rest d1
    else update_loop fuel rest d

/-- The function `update` (lines 195-204). -/
def update (fuel : Nat) (d : Dict) (src : Dict) : Option Dict :=
  if src.table_used = 0 then some d
  else
    let entries := span src.table src.table_first_entry src.table_last_entry
    if ((d.table_used + src.table_used) * 3) % WORD ≥ (d.table_size * 2) % WORD then
      match resize fuel d (((d.table_used + src.table_used) * 2) % WORD) with
      | none => none
      | some d1 => update_loop fuel entries d1
    else update_loop fuel entries d

/-- The first `while` loop of `erase` (lines 255-256): move the last bound
down to a used slot, stopping at zero. -/
def walk_last_down (t : List dict_item) : Nat → Nat
  | 0 => 0
  | n + 1 => if (slot t (n + 1)).used ≠ true then walk_last_down t n else n + 1

/-- The second `while` loop of `erase` (lines 258-259): move the first bound
up to a used slot, stopping at `table_size`. -/
def walk_first_up (t : List dict_item) (table_size : Nat) : Nat → Nat → Nat
  | 0, f => f
  | fuel + 1, f =>
    if (slot t f).used ≠ true ∧ f < table_size then walk_first_up t table_size fuel (f + 1)
    else f

/-- The search loop of `erase` (lines 239-243): the first index in
`first .. last` whose slot is used and holds `key`. -/
def erase_find (d : Dict) (key : ℚ) : Option Nat :=
  (List.range' d.table_first_entry (d.table_last_entry + 1 - d.table_first_entry)).find?
    (fun i => (slot d.table i).used && decide ((slot d.table i).first = key))

/-- The function `erase` (lines 236-261). -/
def erase (d : Dict) (key : ℚ) : Dict :=
  match erase_find d key with
  | none => d
  | some insertion_idx =>
    let t := d.table.set insertion_idx { slot d.table insertion_idx with used := false }
    let used := (d.table_used + WORD - 1) % WORD
    if used = 0 then
      { d with table := t, table_used := used
               table_first_entry := d.table_size, table_last_entry := 0 }
    else
      let last :=
        if insertion_idx = d.table_last_entry then walk_last_down t d.table_last_entry
        else d.table_last_entry
      let first :=
        if insertion_idx = d.table_first_entry then
          walk_first_up t d.table_size d.table_size d.table_first_entry
        else d.table_first_entry
      { d with table := t, table_used := used
               table_first_entry := first, table_last_entry := last }

/-- The function `get` (lines 272-279); the entry pointed to, or `none` for
`NULL`. -/
def get (d : Dict) (key : ℚ) : Option dict_item :=
  if d.table_used > 0 then
    let query_idx := find_idx d key
    if (slot d.table query_idx).used = true ∧ (slot d.table query_idx).first = key then
      some (slot d.table query_idx)
    else none
  else none

/-- The function `contains` (lines 263-270). -/
def contains (d : Dict) (key : ℚ) : Bool :=
  if d.table_used > 0 then
    let query_idx := find_idx d key
    if (slot d.table query_idx).used = true ∧ (slot d.table query_idx).first = key then true
    else false
  else false

/-- The function `size` (lines 281-283). -/
def size (d : Dict) : Nat := d.table_used

/-- The pairs printed by `print_dict` (lines 301-307), in order: key and value
of every used slot from `table_first_entry` to `table_last_entry`. -/
def walk (d : Dict) : List (ℚ × Int) :=
  ((span d.table d.table_first_entry d.table_last_entry).filter (fun s => s.used)).map
    (fun s => (s.first, s.second))

/-- The macro `DBL_MAX` of the source (line 50), which is `1E+37`: the
`double` nearest to `10 ^ 37`. -/
def DBL_MAX : ℚ := 9999999999999999538762658202121142272

/-- The function `min_entry` (lines 285-291). -/
def min_entry (d : Dict) : ℚ :=
  (span d.table d.table_first_entry d.table_last_entry).foldl
    (fun m s => if s.used = true ∧ s.first < m then s.first else m) DBL_MAX

/-- The function `max_entry` (lines 293-299). -/
def max_entry (d : Dict) : ℚ :=
  (span d.table d.table_first_entry d.table_last_entry).foldl
    (fun m s => if s.used = true ∧ s.first > m then s.first else m) 0

/-- The copy loop of `copy_nodes` (lines 215-221) over the indices `is`: a
used slot of the source is written over the slot of the target with the same
index. -/
def copy_slots (src : List dict_item) : List Nat → List dict_item → List dict_item
  | [], t => t
  | i :: rest, t =>
    if (slot src i).used = true then
      copy_slots src rest (t.set i ⟨true, (slot src i).first, (slot src i).second⟩)
    else copy_slots src rest t

/-- The function `copy_nodes` (lines 206-234).  The first scan goes up from
index 0, the second down from `table_size - 1` to index 1; a bound whose scan
finds no used slot keeps the value it had. -/
def copy_nodes (d : Dict) (src : Dict) : Option Dict :=
  let grow := src.table_size > d.table_size
  match (if grow then malloc_table src.table_size else some d.table) with
  | none => none
  | some t0 =>
    let table_size := if grow then src.table_size else d.table_size
    let t := copy_slots src.table (List.range table_size) t0
    let first :=
      match (List.range table_size).find? (fun i => (slot t i).used) with
      | some i => i
      | none => d.table_first_entry
    let last :=
      match (List.range' 1 (table_size - 1)).reverse.find? (fun i => (slot t i).used) with
      | some i => i
      | none => d.table_last_entry
    some { table := t
           table_size := table_size
           table_used := src.table_used
           table_first_entry := first
           table_last_entry := last }

/-- The index `i` and the perturbation after `n` rounds of the probe loops of
`find_insertion_idx` (line 115) and `find_idx` (line 137), which start from
`i = hash & mask` and `perturb = hash`. -/
def probe_state (hash mask : Nat) : Nat → Nat × Nat
  | 0 => (hash &&& mask, hash)
  | n + 1 =>
    (((probe_state hash mask n).1 * 5 + (probe_state hash mask n).2 + 1) % WORD,
     (probe_state hash mask n).2 >>> PERTURB_SHIFT)

/-- The slot index `i & mask` that the probe loops look at in round `n`. -/
def probe (hash mask n : Nat) : Nat := (probe_state hash mask n).1 &&& mask

/-! ## Reachable tables -/

/-- A call of the public interface that changes one table on its own. -/
inductive Call where
  | ins (k : ℚ) (v : Int)
  | del (k : ℚ)

/-- Run a list of calls from a table; `none` when some `insert` does not
return within the fuel. -/
def run (fuel : Nat) : List Call → Dict → Option Dict
  | [], d => some d
  | Call.ins k v :: cs, d =>
    match insert fuel d k v with
    | none => none
    | some d1 => run fuel cs d1
  | Call.del k :: cs, d => run fuel cs (erase d k)

/-- The tables that `new_dict ()` followed by finitely many returning calls
of `insert` and `erase` can produce, whatever the content of the blocks that
`malloc` hands back. -/
inductive ReachableRaw : Dict → Prop
  | new (block : List dict_item) : block.length = MINSIZE → ReachableRaw (new_dict_on block)
  | ins (block : List dict_item) (fuel : Nat) (d d1 : Dict) (k : ℚ) (v : Int) :
      ReachableRaw d → CDict.insert_on block fuel d k v = some d1 → ReachableRaw d1
  | del (d : Dict) (k : ℚ) : ReachableRaw d → ReachableRaw (CDict.erase d k)

/-- The tables that `new_dict ()` followed by finitely many returning calls
of `insert` and `erase` can produce under the zero-memory convention: every
freshly allocated slot array reads all `EMPTY` with key and value zero. -/
inductive Reachable : Dict → Prop
  | new : Reachable new_dict
  | ins (fuel : Nat) (d d1 : Dict) (k : ℚ) (v : Int) :
      Reachable d → CDict.insert fuel d k v = some d1 → Reachable d1
  | del (d : Dict) (k : ℚ) : Reachable d → Reachable (CDict.erase d k)

/-- The tables that `new_dict ()` followed by finitely many returning calls
of `insert`, `erase` and `update` can produce under the zero-memory
convention; the source of an `update` is itself such a table, and a table
object of its own (its content may equal that of the target). -/
inductive ReachableU : Dict → Prop
  | new : ReachableU new_dict
  | ins (fuel : Nat) (d d1 : Dict) (k : ℚ) (v : Int) :
      ReachableU d → CDict.insert fuel d k v = some d1 → ReachableU d1
  | del (d : Dict) (k : ℚ) : ReachableU d → ReachableU (CDict.erase d k)
  | upd (fuel : Nat) (d src d1 : Dict) :
      ReachableU d → ReachableU src → CDict.update fuel d src = some d1 → ReachableU d1

/-- The table after inserting the keys 8, 1, 6 and 7 (each with its own
value) into a new table. -/
def table_four : Dict :=
  { table := [⟨true, 8, 8⟩, ⟨true, 1, 1⟩, fresh_item, fresh_item,
              fresh_item, fresh_item, ⟨true, 6, 6⟩, ⟨true, 7, 7⟩]
    table_size := 8, table_used := 4, table_first_entry := 0, table_last_entry := 7 }

/-- The table `table_four` after `insert (1048640, 7)`. -/
def table_far : Dict :=
  { table := [⟨true, 8, 8⟩, ⟨true, 1, 1⟩, fresh_item, fresh_item,
              ⟨true, 1048640, 7⟩, fresh_item, ⟨true, 6, 6⟩, ⟨true, 7, 7⟩]
    table_size := 8, table_used := 5, table_first_entry := 0, table_last_entry := 7 }

/-- The table after `insert (8, 1)`, `insert (0, 2)`, `insert (12, 3)`,
`insert (4, 10)`, `erase (0)` on a new table: key 4 lives in slot 6, behind
the erased slot 1 of key 0. -/
def table_gap : Dict :=
  { table := [⟨true, 8, 1⟩, ⟨false, 0, 2⟩, fresh_item, fresh_item,
              ⟨true, 12, 3⟩, fresh_item, ⟨true, 4, 10⟩, fresh_item]
    table_size := 8, table_used := 3, table_first_entry := 0, table_last_entry := 6 }

/-- The table `table_gap` after `insert (4, 30)`: key 4 is in slots 1 and 6. -/
def table_twice : Dict :=
  { table := [⟨true, 8, 1⟩, ⟨true, 4, 30⟩, fresh_item, fresh_item,
              ⟨true, 12, 3⟩, fresh_item, ⟨true, 4, 10⟩, fresh_item]
    table_size := 8, table_used := 4, table_first_entry := 0, table_last_entry := 6 }

/-- The table `table_twice` after `insert (100, 0)`: five used slots, one
insert away from a resize. -/
def table_twice_five : Dict :=
  { table := [⟨true, 8, 1⟩, ⟨true, 4, 30⟩, fresh_item, fresh_item,
              ⟨true, 12, 3⟩, fresh_item, ⟨true, 4, 10⟩, ⟨true, 100, 0⟩]
    table_size := 8, table_used := 5, table_first_entry := 0, table_last_entry := 7 }

/-- The table `table_twice_five` after `insert (101, 0)`, which resizes to
capacity 32 and replays the used slots in slot order. -/
def table_grown : Dict :=
  { table := [fresh_item, fresh_item, fresh_item, fresh_item,
              ⟨true, 4, 10⟩, ⟨true, 101, 0⟩, fresh_item, fresh_item,
              ⟨true, 8, 1⟩, fresh_item, fresh_item, fresh_item,
              ⟨true, 12, 3⟩, fresh_item, fresh_item, fresh_item,
              fresh_item, fresh_item, fresh_item, fresh_item,
              fresh_item, fresh_item, fresh_item, fresh_item,
              fresh_item, ⟨true, 100, 0⟩, fresh_item, fresh_item,
              fresh_item, fresh_item, fresh_item, fresh_item]
    table_size := 32, table_used := 5, table_first_entry := 4, table_last_entry := 25 }

/-- The table after `insert` of 8, 1, 2, 3, 4, `erase (4)`, `insert (5)`,
`erase (5)`, `insert (6)`, `erase (6)`, `insert (7)` on a new table: every
slot is used or holds the key of an erased entry. -/
def table_worn : Dict :=
  { table := [⟨true, 8, 8⟩, ⟨true, 1, 1⟩, ⟨true, 2, 2⟩, ⟨true, 3, 3⟩,
              ⟨false, 4, 4⟩, ⟨false, 5, 5⟩, ⟨false, 6, 6⟩, ⟨true, 7, 7⟩]
    table_size := 8, table_used := 5, table_first_entry := 0, table_last_entry := 7 }

/-- The table after `insert (1048640, 7)` on a new table. -/
def table_single : Dict :=
  { table := [⟨true, 1048640, 7⟩, fresh_item, fresh_item, fresh_item,
              fresh_item, fresh_item, fresh_item, fresh_item]
    table_size := 8, table_used := 1, table_first_entry := 0, table_last_entry := 0 }

/-- The table after `insert (-1, 5)` on a new table. -/
def table_negative : Dict :=
  { table := [fresh_item, fresh_item, fresh_item, fresh_item,
              fresh_item, fresh_item, fresh_item, ⟨true, -1, 5⟩]
    table_size := 8, table_used := 1, table_first_entry := 7, table_last_entry := 7 }

/-- The table after `insert (8, 1)`, `insert (0, 2)`, `erase (8)` on a new
table: key 0 lives in slot 1, behind the erased slot 0 of key 8. -/
def table_zero_behind : Dict :=
  { table := [⟨false, 8, 1⟩, ⟨true, 0, 2⟩, fresh_item, fresh_item,
              fresh_item, fresh_item, fresh_item, fresh_item]
    table_size := 8, table_used := 1, table_first_entry := 1, table_last_entry := 1 }

/-- The table that `copy_nodes` makes of a new table and `table_zero_behind`:
the used slot is copied, the key of the erased slot is not. -/
def table_zero_copied : Dict :=
  { table := [fresh_item, ⟨true, 0, 2⟩, fresh_item, fresh_item,
              fresh_item, fresh_item, fresh_item, fresh_item]
    table_size := 8, table_used := 1, table_first_entry := 1, table_last_entry := 1 }

/-- The table after `insert` of (1, 10), (2, 20), (3, 30), (4, 40), (5, 50)
on a new table. -/
def table_five : Dict :=
  { table := [fresh_item, ⟨true, 1, 10⟩, ⟨true, 2, 20⟩, ⟨true, 3, 30⟩,
              ⟨true, 4, 40⟩, ⟨true, 5, 50⟩, fresh_item, fresh_item]
    table_size := 8, table_used := 5, table_first_entry := 1, table_last_entry := 5 }

/-- The table `table_five` after `insert_key_val_pair (6, 60)`, as `insert`
passes it to `resize`; its slot array is the one that `resize` frees on line
185. -/
def table_six_full : Dict :=
  { table := [fresh_item, ⟨true, 1, 10⟩, ⟨true, 2, 20⟩, ⟨true, 3, 30⟩,
              ⟨true, 4, 40⟩, ⟨true, 5, 50⟩, ⟨true, 6, 60⟩, fresh_item]
    table_size := 8, table_used := 6, table_first_entry := 1, table_last_entry := 6 }

/-- The content of the array of 8 slots that `resize` frees during the sixth
`insert` of the keys 1 to 6: the slot array of `table_six_full`. -/
def stale_eight : List dict_item :=
  [fresh_item, ⟨true, 1, 10⟩, ⟨true, 2, 20⟩, ⟨true, 3, 30⟩,
   ⟨true, 4, 40⟩, ⟨true, 5, 50⟩, ⟨true, 6, 60⟩, fresh_item]

/-- The table after `insert` of (1, 10) to (6, 60) on a new table: capacity
32, the keys in the slots 1 to 6. -/
def table_thirty_two : Dict :=
  { table := [fresh_item, ⟨true, 1, 10⟩, ⟨true, 2, 20⟩, ⟨true, 3, 30⟩,
              ⟨true, 4, 40⟩, ⟨true, 5, 50⟩, ⟨true, 6, 60⟩] ++ List.replicate 25 fresh_item
    table_size := 32, table_used := 6, table_first_entry := 1, table_last_entry := 6 }

/-- The content of an array of 32 slots that a table with the keys 1 to 6
held and that was freed since (by `copy_nodes` on line 209, or by its owner):
the slot array of `table_thirty_two`. -/
def stale_thirty_two : List dict_item :=
  [fresh_item, ⟨true, 1, 10⟩, ⟨true, 2, 20⟩, ⟨true, 3, 30⟩,
   ⟨true, 4, 40⟩, ⟨true, 5, 50⟩, ⟨true, 6, 60⟩] ++ List.replicate 25 fresh_item

/-- The shape that every table built by the interface has: the slot array
has `table_size` slots, `table_size` is a power of two from 8 on whose byte
count fits a `size_t`, and `table_used` counts the used slots. -/
structure WF (d : Dict) : Prop where
  len : d.table.length = d.table_size
  pow : ∃ n, 3 ≤ n ∧ d.table_size = 2 ^ n
  fits : d.table_size * SIZEOF_DICT_ITEM < WORD
  count : d.table_used = d.table.countP (fun s => s.used)

/-- The load bound kept by `insert`: `table_used` is at most two thirds of
`table_size`. -/
def Load (d : Dict) : Prop := 3 * d.table_used ≤ 2 * d.table_size

/-- The occupied range of a table with at least one used slot: the two bounds
are in order and inside the array, both index used slots, and every used slot
lies between them. -/
structure Bounds (d : Dict) : Prop where
  le : d.table_first_entry ≤ d.table_last_entry
  lt : d.table_last_entry < d.table_size
  first_used : (slot d.table d.table_first_entry).used = true
  last_used : (slot d.table d.table_last_entry).used = true
  inside : ∀ i, (slot d.table i).used = true →
    d.table_first_entry ≤ i ∧ i ≤ d.table_last_entry

/-- The bounds are kept whenever the table is not empty. -/
def Tracked (d : Dict) : Prop := 0 < d.table_used → Bounds d

/-- The step of the probe loops once the perturbation is zero, without the
reduction to a word. -/
def lcg (x : Nat) : Nat := 5 * x + 1

/-- The constant term of the `m`-fold step: `lcg^[m] x = 5 ^ m * x + lcg_offset m`. -/
def lcg_offset : Nat → Nat
  | 0 => 0
  | m + 1 => 5 * lcg_offset m + 1

/-! ## Runs and reachability -/

theorem reachable_run (fuel : Nat) (cs : List Call) :
    ∀ d d1 : Dict, Reachable d → run fuel cs d = some d1 → Reachable d1 := by
  induction cs with
  | nil =>
    intro d d1 hd h
    simp only [run, Option.some.injEq] at h
    exact h ▸ hd
  | cons c cs ih =>
    intro d d1 hd h
    cases c with
    | ins k v =>
      simp only [run] at h
      cases hi : insert fuel d k v with
      | none => simp [hi] at h
      | some d2 =>
        simp only [hi] at h
        exact ih d2 d1 (Reachable.ins fuel d d2 k v hd hi) h
    | del k =>
      simp only [run] at h
      exact ih (erase d k) d1 (Reachable.del d k hd) h

theorem reachable_table_four : Reachable table_four :=
  reachable_run 16 [Call.ins 8 8, Call.ins 1 1, Call.ins 6 6, Call.ins 7 7]
    new_dict table_four Reachable.new (by decide!)

theorem reachable_table_far : Reachable table_far :=
  Reachable.ins 16 table_four table_far 1048640 7 reachable_table_four (by decide!)

theorem reachable_table_gap : Reachable table_gap :=
  reachable_run 16 [Call.ins 8 1, Call.ins 0 2, Call.ins 12 3, Call.ins 4 10, Call.del 0]
    new_dict table_gap Reachable.new (by decide!)

theorem reachable_table_twice : Reachable table_twice :=
  Reachable.ins 16 table_gap table_twice 4 30 reachable_table_gap (by decide!)

theorem reachable_table_twice_five : Reachable table_twice_five :=
  Reachable.ins 16 table_twice table_twice_five 100 0 reachable_table_twice (by decide!)

theorem reachable_table_grown : Reachable table_grown :=
  Reachable.ins 16 table_twice_five table_grown 101 0 reachable_table_twice_five (by decide!)

theorem reachable_table_worn : Reachable table_worn :=
  reachable_run 16
    [Call.ins 8 8, Call.ins 1 1, Call.ins 2 2, Call.ins 3 3, Call.ins 4 4, Call.del 4,
     Call.ins 5 5, Call.del 5, Call.ins 6 6, Call.del 6, Call.ins 7 7]
    new_dict table_worn Reachable.new (by decide!)

theorem reachable_table_single : Reachable table_single :=
  Reachable.ins 16 new_dict table_single 1048640 7 Reachable.new (by decide!)

/-! ## The insertion probe on a table without a stopping slot -/

/-- When every slot below the mask either holds the key of an erased entry
(empty, key other than zero) or is used by another key, the loop of
`find_insertion_idx` never returns. -/
theorem find_insertion_loop_stuck (t : List dict_item) (mask : Nat) (key : ℚ) (freeslot : Nat)
    (h : ∀ j, j ≤ mask →
      ((slot t j).used = false ∧ (slot t j).first ≠ 0) ∨
      ((slot t j).used = true ∧ (slot t j).first ≠ key)) :
    ∀ fuel i perturb, find_insertion_loop t mask key freeslot fuel i perturb = none := by
  intro fuel
  induction fuel with
  | zero => intro i perturb; rfl
  | succ n ih =>
    intro i perturb
    rcases h ((((i <<< 2) + i + perturb + 1) % WORD) &&& mask) Nat.and_le_right with h1 | h1
    · simp only [find_insertion_loop, h1.1, h1.2, ne_eq, not_false_eq_true, and_self, if_true]
      exact ih _ _
    · have hu : ¬ ((slot t ((((i <<< 2) + i + perturb + 1) % WORD) &&& mask)).used = false) := by
        simp [h1.1]
      simp only [find_insertion_loop, hu, false_and, if_false, h1.2]
      exact ih _ _

/-! ## Runs of the code where a contract of the dictionary breaks -/

/-- C1, at the input where the code breaks it: in the reachable table holding
the keys 8, 1, 6, 7 the call `insert (1048640, 7)` returns and stores the pair
in slot 4, the tenth slot of the probe sequence of the key, while `find_idx`
looks at nine; afterwards `get (1048640)` is `NULL` and `contains (1048640)`
is false. -/
theorem round_trip_lost_key :
    Reachable table_four ∧
    insert 16 table_four 1048640 7 = some table_far ∧
    slot table_far.table 4 = ⟨true, 1048640, 7⟩ ∧
    get table_far 1048640 = none ∧
    contains table_far 1048640 = false :=
  ⟨reachable_table_four, by decide!, by decide!, by decide!, by decide!⟩

/-- The update scenario of the specification: `insert (1.5, 10)`,
`insert (2.5, 20)`, `insert (1.5, 30)` on a new table give size 2,
`get (1.5)` with value 30 and `get (2.5)` with value 20. -/
theorem update_scenario :
    ∃ d, run 16 [Call.ins (3 / 2) 10, Call.ins (5 / 2) 20, Call.ins (3 / 2) 30] new_dict = some d ∧
      size d = 2 ∧ get d (3 / 2) = some ⟨true, 3 / 2, 30⟩ ∧ get d (5 / 2) = some ⟨true, 5 / 2, 20⟩ :=
  ⟨{ table := [⟨true, 3 / 2, 30⟩, ⟨true, 5 / 2, 20⟩, fresh_item, fresh_item,
               fresh_item, fresh_item, fresh_item, fresh_item]
     table_size := 8, table_used := 2, table_first_entry := 0, table_last_entry := 1 },
   by decide!, by decide!, by decide!, by decide!⟩

/-- C2, at the input where the code breaks it: in the reachable table
`table_gap` the key 4 is present with value 10 (`contains (4)` is true), yet
`insert (4, 30)` stops at the erased slot of key 0 on the way, writes a second
entry for key 4 there and raises `size ()` from 3 to 4. -/
theorem update_adds_second_copy :
    Reachable table_gap ∧
    contains table_gap 4 = true ∧
    get table_gap 4 = some ⟨true, 4, 10⟩ ∧
    insert 16 table_gap 4 30 = some table_twice ∧
    size table_gap = 3 ∧ size table_twice = 4 ∧
    slot table_twice.table 1 = ⟨true, 4, 30⟩ ∧ slot table_twice.table 6 = ⟨true, 4, 10⟩ :=
  ⟨reachable_table_gap, by decide!, by decide!, by decide!, by decide!, by decide!,
   by decide!, by decide!⟩

/-- C3, at the input where the code breaks it: in the reachable table
`table_twice` the call `erase (4)` clears one of the two entries of key 4 and
`contains (4)` is still true afterwards, `get (4)` returning the older value
10. -/
theorem erase_leaves_second_copy :
    Reachable table_twice ∧
    contains (erase table_twice 4) 4 = true ∧
    get (erase table_twice 4) 4 = some ⟨true, 4, 10⟩ :=
  ⟨reachable_table_twice, by decide!, by decide!⟩

/-- C4, at the input where the code breaks it: in the reachable table
`table_far` the call `contains (1048640)` is false, yet `erase (1048640)`
finds the key by its scan over the slots and lowers `size ()` from 5 to 4. -/
theorem erase_shrinks_after_contains_false :
    Reachable table_far ∧
    contains table_far 1048640 = false ∧
    size table_far = 5 ∧ size (erase table_far 1048640) = 4 :=
  ⟨reachable_table_far, by decide!, by decide!, by decide!⟩

/-- C5, at the input where the code breaks it: in the reachable table
`table_twice_five` the call `get (4)` returns value 30; `insert (101, 0)`
returns after a resize to capacity 32 that replays both entries of key 4 in
slot order, and afterwards `get (4)` returns value 10. -/
theorem resize_changes_value_of_other_key :
    Reachable table_twice_five ∧
    get table_twice_five 4 = some ⟨true, 4, 30⟩ ∧
    insert 16 table_twice_five 101 0 = some table_grown ∧
    table_grown.table_size = 32 ∧
    get table_grown 4 = some ⟨true, 4, 10⟩ :=
  ⟨reachable_table_twice_five, by decide!, by decide!, by decide!, by decide!⟩

/-- C7, at the input where the code breaks it: in the reachable table
`table_worn` (five used slots, three slots holding keys of erased entries)
the probe `find_insertion_idx` for key 15 returns for no amount of fuel, and
so `insert (15, v)` never returns. -/
theorem insert_probe_never_returns :
    Reachable table_worn ∧
    (∀ fuel, find_insertion_idx fuel table_worn 15 = none) ∧
    (∀ fuel v, insert fuel table_worn 15 v = none) := by
  have hstuck : ∀ fuel, find_insertion_idx fuel table_worn 15 = none := by
    intro fuel
    have h0 : ¬ ((slot table_worn.table
        ((hash_double 15 &&& mask_of table_worn.table_size) &&&
          mask_of table_worn.table_size)).first = 15) := by decide!
    simp only [find_insertion_idx, h0, if_false]
    apply find_insertion_loop_stuck
    have hall : ∀ j, j ≤ mask_of table_worn.table_size →
        ((slot table_worn.table j).used = false ∧ (slot table_worn.table j).first ≠ 0) ∨
        ((slot table_worn.table j).used = true ∧ (slot table_worn.table j).first ≠ 15) := by
      decide!
    exact hall
  refine ⟨reachable_table_worn, hstuck, ?_⟩
  intro fuel v
  simp [insert, insert_key_val_pair, hstuck fuel]

/-- C9, at the input where the code breaks it: with A the reachable table of
the keys 8, 1, 6, 7 and B the reachable table of the single pair
(1048640, 7), `update (A, B)` returns, B contains the key, and afterwards
`get (A, 1048640)` is `NULL`. -/
theorem merge_loses_key :
    Reachable table_four ∧ Reachable table_single ∧
    contains table_single 1048640 = true ∧
    get table_single 1048640 = some ⟨true, 1048640, 7⟩ ∧
    update 16 table_four table_single = some table_far ∧
    get table_far 1048640 = none :=
  ⟨reachable_table_four, reachable_table_single, by decide!, by decide!, by decide!,
   by decide!⟩

/-- C10, at the inputs where the code breaks it: the walk over `table_far`
yields the pair (1048640, 7) although `get (1048640)` is `NULL`, and the walk
over `table_twice` yields key 4 twice, once with a value that `get (4)` does
not return. -/
theorem walk_differs_from_get :
    Reachable table_far ∧ Reachable table_twice ∧
    walk table_far = [(8, 8), (1, 1), (1048640, 7), (6, 6), (7, 7)] ∧
    get table_far 1048640 = none ∧
    walk table_twice = [(8, 1), (4, 30), (12, 3), (4, 10)] ∧
    get table_twice 4 = some ⟨true, 4, 30⟩ :=
  ⟨reachable_table_far, reachable_table_twice, by decide!, by decide!, by decide!,
   by decide!⟩

/-! ## Slots, masks and the bound on the insertion index -/

theorem slot_of_lt (t : List dict_item) (i : Nat) (h : i < t.length) : slot t i = t[i] := by
  simp [slot, List.getD_eq_getElem?_getD, List.getElem?_eq_getElem h]

theorem slot_of_ge (t : List dict_item) (i : Nat) (h : t.length ≤ i) : slot t i = fresh_item := by
  simp [slot, List.getD_eq_getElem?_getD, List.getElem?_eq_none h]

theorem slot_set (t : List dict_item) (j i : Nat) (a : dict_item) (h : j < t.length) :
    slot (t.set j a) i = if i = j then a else slot t i := by
  unfold slot
  simp only [List.getD_eq_getElem?_getD, List.getElem?_set]
  by_cases hij : i = j
  · subst hij; simp [h]
  · have : ¬ j = i := fun e => hij e.symm
    simp [hij, this]

theorem used_lt_length (t : List dict_item) (i : Nat) (h : (slot t i).used = true) :
    i < t.length := by
  by_contra hc
  rw [slot_of_ge t i (Nat.le_of_not_lt hc)] at h
  simp [fresh_item] at h

theorem mask_of_eq (n : Nat) (h0 : 0 < n) (h1 : n ≤ WORD) : mask_of n = n - 1 := by
  unfold mask_of
  have : n + WORD - 1 = (n - 1) + WORD := by omega
  rw [this, Nat.add_mod_right]
  exact Nat.mod_eq_of_lt (by omega)

theorem find_insertion_loop_le (t : List dict_item) (mask : Nat) (key : ℚ) (freeslot : Nat)
    (hf : freeslot ≤ mask ∨ freeslot = WORD - 1) :
    ∀ fuel i perturb r, find_insertion_loop t mask key freeslot fuel i perturb = some r →
      r ≤ mask := by
  intro fuel
  induction fuel with
  | zero => intro i perturb r h; simp [find_insertion_loop] at h
  | succ n ih =>
    intro i perturb r h
    simp only [find_insertion_loop] at h
    split at h
    · exact ih _ _ _ h
    · split at h
      · simp only [Option.some.injEq] at h
        subst h
        split
        · exact Nat.and_le_right
        · rcases hf with hf | hf
          · exact hf
          · contradiction
      · split at h
        · simp only [Option.some.injEq] at h
          subst h
          exact Nat.and_le_right
        · exact ih _ _ _ h

theorem find_insertion_idx_le (fuel : Nat) (d : Dict) (key : ℚ) (r : Nat)
    (h : find_insertion_idx fuel d key = some r) : r ≤ mask_of d.table_size := by
  simp only [find_insertion_idx] at h
  split at h
  · simp only [Option.some.injEq] at h
    subst h
    exact Nat.and_le_right
  · refine find_insertion_loop_le _ _ _ _ ?_ _ _ _ _ h
    split
    · exact Or.inl Nat.and_le_right
    · exact Or.inr rfl


/-! ## Well-formedness is kept by every operation -/

theorem WF.size_pos {d : Dict} (h : WF d) : 8 ≤ d.table_size := by
  obtain ⟨n, hn, he⟩ := h.pow
  rw [he]
  calc 8 = 2 ^ 3 := by norm_num
    _ ≤ 2 ^ n := Nat.pow_le_pow_right (by norm_num) hn

theorem WF.size_lt {d : Dict} (h : WF d) : d.table_size * 24 < 2 ^ 64 := h.fits

theorem WF.mask {d : Dict} (h : WF d) : mask_of d.table_size = d.table_size - 1 := by
  have h8 := h.size_pos
  have hf := h.size_lt
  apply mask_of_eq
  · omega
  · unfold WORD; omega

theorem WF.used_le {d : Dict} (h : WF d) : d.table_used ≤ d.table_size := by
  rw [h.count, ← h.len]
  exact List.countP_le_length _

theorem track_table (d : Dict) (i : Nat) : (track_table_start_end d i).table = d.table := by
  unfold track_table_start_end; split <;> [rfl; (split <;> [rfl; (split <;> rfl)])]

theorem track_size (d : Dict) (i : Nat) :
    (track_table_start_end d i).table_size = d.table_size := by
  unfold track_table_start_end; split <;> [rfl; (split <;> [rfl; (split <;> rfl)])]

theorem track_used (d : Dict) (i : Nat) :
    (track_table_start_end d i).table_used = d.table_used := by
  unfold track_table_start_end; split <;> [rfl; (split <;> [rfl; (split <;> rfl)])]

/-- One call of `insert_key_val_pair` keeps a table well formed and its
capacity, and raises `table_used` by at most one. -/
theorem insert_key_val_pair_WF (fuel : Nat) (d d1 : Dict) (key : ℚ) (val : Int)
    (hd : WF d) (h : insert_key_val_pair fuel d key val = some d1) :
    WF d1 ∧ d1.table_size = d.table_size ∧ d.table_used ≤ d1.table_used ∧
      d1.table_used ≤ d.table_used + 1 := by
  unfold insert_key_val_pair at h
  cases hidx : find_insertion_idx fuel d key with
  | none => simp [hidx] at h
  | some idx =>
    have hle := find_insertion_idx_le fuel d key idx hidx
    rw [hd.mask] at hle
    have h8 := hd.size_pos
    have hlt : idx < d.table.length := by rw [hd.len]; omega
    have hwrap : (d.table_used + 1) % WORD = d.table_used + 1 := by
      apply Nat.mod_eq_of_lt
      have := hd.used_le
      have := hd.size_lt
      unfold WORD
      omega
    rw [hwrap] at h
    simp only [hidx] at h
    by_cases hu : (slot d.table idx).used = true
    · rw [if_neg (not_not.mpr hu)] at h
      simp only [Option.some.injEq] at h
      subst h
      refine ⟨⟨?_, hd.pow, hd.fits, ?_⟩, rfl, Nat.le_refl _, Nat.le_succ _⟩
      · simp [hd.len]
      · have hg : (d.table[idx]).used = true := by rw [← slot_of_lt d.table idx hlt]; exact hu
        simp only [List.countP_set _ _ _ _ hlt, hg, hu, if_true]
        have hpos : 0 < d.table.countP (fun s => s.used) :=
          List.countP_pos_iff.mpr ⟨d.table[idx], List.getElem_mem _, hg⟩
        have := hd.count
        omega
    · rw [if_pos hu] at h
      simp only [Option.some.injEq] at h
      subst h
      refine ⟨⟨?_, ?_, ?_, ?_⟩, ?_, ?_, ?_⟩
      · simp [track_table, hd.len, track_size]
      · simpa [track_size] using hd.pow
      · simpa [track_size] using hd.fits
      · have hg : ¬ (d.table[idx]).used = true := by rw [← slot_of_lt d.table idx hlt]; exact hu
        simp only [track_table, track_used, List.countP_set _ _ _ _ hlt, hg, if_false, if_true,
          Bool.false_eq_true]
        have := hd.count
        omega
      · simp [track_size]
      · simp only [track_used]; omega
      · simp only [track_used]; omega


/-- The size loop of `resize`, started at a power of two `2 ^ k` with enough
rounds left and asked for at most `2 ^ 63`, stops at the first power of two
from `2 ^ k` on that reaches the request. -/
theorem new_table_size_spec (newsize : Nat) (hn : newsize ≤ 2 ^ 63) :
    ∀ fuel k, k ≤ 63 → 63 - k < fuel →
      ∃ m, k ≤ m ∧ m ≤ 63 ∧ new_table_size newsize fuel (2 ^ k) = 2 ^ m ∧ newsize ≤ 2 ^ m ∧
        (m = k ∨ 2 ^ (m - 1) < newsize) := by
  intro fuel
  induction fuel with
  | zero => intro k _ h; omega
  | succ f ih =>
    intro k hk hf
    have hpos : 0 < 2 ^ k := Nat.pos_pow_of_pos k (by norm_num)
    by_cases hc : 2 ^ k < newsize
    · have hk63 : k < 63 := by
        by_contra hge
        have : k = 63 := by omega
        subst this
        omega
      have hstep : (2 ^ k <<< PERTURB_B) % WORD = 2 ^ (k + 1) := by
        have h1 : (2 : Nat) ^ (k + 1) < 2 ^ 64 := Nat.pow_lt_pow_right (by norm_num) (by omega)
        simp only [PERTURB_B, Nat.shiftLeft_eq, WORD, pow_one]
        rw [← Nat.pow_succ]
        exact Nat.mod_eq_of_lt h1
      obtain ⟨m, hm1, hm2, hm3, hm4, hm5⟩ := ih (k + 1) (by omega) (by omega)
      refine ⟨m, by omega, hm2, ?_, hm4, Or.inr ?_⟩
      · simp only [new_table_size]
        rw [if_pos ⟨hc, hpos⟩, hstep]
        exact hm3
      · rcases hm5 with h | h
        · subst h; simpa using hc
        · exact h
    · refine ⟨k, Nat.le_refl _, hk, ?_, by omega, Or.inl rfl⟩
      simp only [new_table_size]
      rw [if_neg (fun h => hc h.1)]

theorem new_table_size_minsize (newsize : Nat) (hn : newsize ≤ 2 ^ 63) :
    ∃ m, 3 ≤ m ∧ m ≤ 63 ∧ new_table_size newsize 64 MINSIZE = 2 ^ m ∧ newsize ≤ 2 ^ m ∧
      (m = 3 ∨ 2 ^ (m - 1) < newsize) := by
  have h := new_table_size_spec newsize hn 64 3 (by norm_num) (by norm_num)
  simpa [MINSIZE] using h

/-- The reinsertion loop keeps a table well formed and its capacity, and adds
at most one to `table_used` per used slot replayed. -/
theorem reinsert_WF (fuel : Nat) (l : List dict_item) :
    ∀ d d1 : Dict, WF d → reinsert fuel l d = some d1 →
      WF d1 ∧ d1.table_size = d.table_size ∧
        d1.table_used ≤ d.table_used + l.countP (fun s => s.used) := by
  induction l with
  | nil =>
    intro d d1 hd h
    simp only [reinsert, Option.some.injEq] at h
    subst h
    exact ⟨hd, rfl, by simp⟩
  | cons s rest ih =>
    intro d d1 hd h
    simp only [reinsert] at h
    by_cases hs : s.used = true
    · rw [if_pos hs] at h
      cases hi : insert_key_val_pair fuel d s.first s.second with
      | none => simp [hi] at h
      | some d2 =>
        simp only [hi] at h
        obtain ⟨w2, s2, _, u2⟩ := insert_key_val_pair_WF fuel d d2 _ _ hd hi
        obtain ⟨w1, s1, u1⟩ := ih d2 d1 w2 h
        refine ⟨w1, by rw [s1, s2], ?_⟩
        simp only [List.countP_cons, hs, if_true]
        omega
    · rw [if_neg hs] at h
      obtain ⟨w1, s1, u1⟩ := ih d d1 hd h
      refine ⟨w1, s1, ?_⟩
      simp only [List.countP_cons, hs, if_false]
      simpa using u1

theorem countP_span_le_drop (t : List dict_item) (n : Nat) :
    ∀ a, ((List.range' a n).map (slot t)).countP (fun s => s.used) ≤
      (t.drop a).countP (fun s => s.used) := by
  induction n with
  | zero => intro a; simp
  | succ n ih =>
    intro a
    simp only [List.range'_succ, List.map_cons, List.countP_cons]
    by_cases hu : (slot t a).used = true
    · have hlt := used_lt_length t a hu
      rw [List.drop_eq_getElem_cons hlt, List.countP_cons]
      have hg : (t[a]).used = true := by rw [← slot_of_lt t a hlt]; exact hu
      simp only [hu, hg, if_true]
      have := ih (a + 1)
      omega
    · simp only [hu, if_false, Nat.add_zero, Bool.false_eq_true]
      have h1 := ih (a + 1)
      have h2 : (t.drop (a + 1)).countP (fun s => s.used) ≤ (t.drop a).countP (fun s => s.used) := by
        apply List.Sublist.countP_le
        rw [← List.drop_drop 1 a] 
        exact List.drop_sublist _ _
      omega

theorem countP_span_le (t : List dict_item) (first last : Nat) :
    (span t first last).countP (fun s => s.used) ≤ t.countP (fun s => s.used) := by
  unfold span
  refine Nat.le_trans (countP_span_le_drop t _ first) ?_
  exact List.Sublist.countP_le _ (List.drop_sublist _ _)


/-- A returning `resize` for a request of at most `2 ^ 63` gives a well-formed
table whose capacity reaches the request and whose `table_used` is at most the
number of used slots of the old array. -/
theorem resize_WF (fuel : Nat) (d d1 : Dict) (newsize : Nat) (hn : newsize ≤ 2 ^ 63)
    (h : resize fuel d newsize = some d1) :
    WF d1 ∧ newsize ≤ d1.table_size ∧
      d1.table_used ≤ d.table.countP (fun s => s.used) := by
  obtain ⟨m, hm3, hm63, hts, hge, _⟩ := new_table_size_minsize newsize hn
  simp only [resize, hts, malloc_table] at h
  by_cases hfit : 2 ^ m * SIZEOF_DICT_ITEM < WORD
  · rw [if_pos hfit] at h
    simp only at h
    have hw0 : WF { table := List.replicate (2 ^ m) fresh_item, table_size := 2 ^ m,
                    table_used := 0, table_first_entry := 2 ^ m - 1, table_last_entry := 0 } :=
      ⟨by simp, ⟨m, hm3, rfl⟩, hfit, by simp [List.countP_replicate, fresh_item]⟩
    obtain ⟨w1, s1, u1⟩ := reinsert_WF fuel _ _ d1 hw0 h
    refine ⟨w1, ?_, ?_⟩
    · rw [s1]; exact hge
    · have := countP_span_le d.table d.table_first_entry d.table_last_entry
      simp only [Nat.zero_add] at u1
      omega
  · rw [if_neg hfit] at h
    simp at h

/-- A returning `insert` keeps a table well formed and within the load
bound. -/
theorem insert_WF (fuel : Nat) (d d1 : Dict) (key : ℚ) (value : Int)
    (hd : WF d) (hl : Load d) (h : insert fuel d key value = some d1) :
    WF d1 ∧ Load d1 := by
  unfold insert at h
  cases hi : insert_key_val_pair fuel d key value with
  | none => simp [hi] at h
  | some d2 =>
    simp only [hi] at h
    obtain ⟨w2, s2, _, u2⟩ := insert_key_val_pair_WF fuel d d2 key value hd hi
    by_cases hc : 3 * d2.table_used > 2 * d2.table_size
    · rw [if_pos hc] at h
      have hfit := w2.size_lt
      have h8 := w2.size_pos
      have hmod : (d2.table_size * RESIZEFACTOR) % WORD = d2.table_size * 4 := by
        apply Nat.mod_eq_of_lt
        unfold WORD RESIZEFACTOR
        omega
      rw [hmod] at h
      obtain ⟨w1, g1, u1⟩ := resize_WF fuel d2 d1 _ (by omega) h
      refine ⟨w1, ?_⟩
      unfold Load at hl ⊢
      rw [← w2.count] at u1
      omega
    · rw [if_neg hc] at h
      simp only [Option.some.injEq] at h
      subst h
      exact ⟨w2, by unfold Load; omega⟩

theorem erase_find_some (d : Dict) (key : ℚ) (j : Nat) (h : erase_find d key = some j) :
    (slot d.table j).used = true ∧ (slot d.table j).first = key ∧
      d.table_first_entry ≤ j ∧ j ≤ d.table_last_entry := by
  unfold erase_find at h
  have h1 := List.find?_some h
  have h2 := List.mem_of_find?_eq_some h
  simp only [Bool.and_eq_true, decide_eq_true_eq] at h1
  rw [List.mem_range'_1] at h2
  refine ⟨h1.1, h1.2, h2.1, ?_⟩
  omega

theorem erase_table (d : Dict) (key : ℚ) (j : Nat) (h : erase_find d key = some j) :
    (erase d key).table = d.table.set j { slot d.table j with used := false } ∧
    (erase d key).table_size = d.table_size ∧
    (erase d key).table_used = (d.table_used + WORD - 1) % WORD := by
  unfold erase
  simp only [h]
  split <;> exact ⟨rfl, rfl, rfl⟩

theorem erase_none (d : Dict) (key : ℚ) (h : erase_find d key = none) : erase d key = d := by
  unfold erase
  simp only [h]

/-- The call `erase` keeps a table well formed and its capacity, and does not
raise `table_used`. -/
theorem erase_WF (d : Dict) (key : ℚ) (hd : WF d) :
    WF (erase d key) ∧ (erase d key).table_size = d.table_size ∧
      (erase d key).table_used ≤ d.table_used := by
  cases hf : erase_find d key with
  | none => rw [erase_none d key hf]; exact ⟨hd, rfl, Nat.le_refl _⟩
  | some j =>
    obtain ⟨ht, hs, hu⟩ := erase_table d key j hf
    obtain ⟨hused, _, _, _⟩ := erase_find_some d key j hf
    have hlt := used_lt_length d.table j hused
    have hg : (d.table[j]).used = true := by rw [← slot_of_lt d.table j hlt]; exact hused
    have hpos : 0 < d.table.countP (fun s => s.used) :=
      List.countP_pos_iff.mpr ⟨d.table[j], List.getElem_mem _, hg⟩
    have hwrap : (d.table_used + WORD - 1) % WORD = d.table_used - 1 := by
      have h1 := hd.count
      have h2 := hd.used_le
      have h3 := hd.size_lt
      have h4 : d.table_used + WORD - 1 = (d.table_used - 1) + WORD := by omega
      rw [h4, Nat.add_mod_right]
      apply Nat.mod_eq_of_lt
      unfold WORD
      omega
    rw [hwrap] at hu
    refine ⟨⟨?_, ?_, ?_, ?_⟩, hs, by omega⟩
    · rw [ht, hs]; simp [hd.len]
    · rw [hs]; exact hd.pow
    · rw [hs]; exact hd.fits
    · rw [ht, hu, List.countP_set _ _ _ _ hlt]
      simp only [hg, if_true, Bool.false_eq_true, if_false]
      have := hd.count
      omega

theorem erase_Load (d : Dict) (key : ℚ) (hd : WF d) (hl : Load d) : Load (erase d key) := by
  obtain ⟨_, hs, hu⟩ := erase_WF d key hd
  unfold Load at hl ⊢
  rw [hs]
  omega

theorem update_loop_WF (fuel : Nat) (l : List dict_item) :
    ∀ d d1 : Dict, WF d → Load d → update_loop fuel l d = some d1 → WF d1 ∧ Load d1 := by
  induction l with
  | nil =>
    intro d d1 hd hl h
    simp only [update_loop, Option.some.injEq] at h
    subst h
    exact ⟨hd, hl⟩
  | cons s rest ih =>
    intro d d1 hd hl h
    simp only [update_loop] at h
    by_cases hs : s.used = true
    · rw [if_pos hs] at h
      cases hi : insert fuel d s.first s.second with
      | none => simp [hi] at h
      | some d2 =>
        simp only [hi] at h
        obtain ⟨w2, l2⟩ := insert_WF fuel d d2 _ _ hd hl hi
        exact ih d2 d1 w2 l2 h
    · rw [if_neg hs] at h
      exact ih d d1 hd hl h

/-- A returning `update` from a well-formed source keeps a table well formed
and within the load bound. -/
theorem update_WF (fuel : Nat) (d src d1 : Dict) (hd : WF d) (hl : Load d) (hsrc : WF src)
    (h : update fuel d src = some d1) : WF d1 ∧ Load d1 := by
  unfold update at h
  by_cases h0 : src.table_used = 0
  · rw [if_pos h0] at h
    simp only [Option.some.injEq] at h
    subst h
    exact ⟨hd, hl⟩
  · rw [if_neg h0] at h
    simp only at h
    have hu1 := hd.used_le
    have hu2 := hsrc.used_le
    have hf1 := hd.size_lt
    have hf2 := hsrc.size_lt
    by_cases hc : ((d.table_used + src.table_used) * 3) % WORD ≥ (d.table_size * 2) % WORD
    · rw [if_pos hc] at h
      have hmod : ((d.table_used + src.table_used) * 2) % WORD =
          (d.table_used + src.table_used) * 2 := by
        apply Nat.mod_eq_of_lt
        unfold WORD
        omega
      rw [hmod] at h
      cases hr : resize fuel d ((d.table_used + src.table_used) * 2) with
      | none => simp [hr] at h
      | some d2 =>
        simp only [hr] at h
        obtain ⟨w2, g2, u2⟩ := resize_WF fuel d d2 _ (by omega) hr
        rw [← hd.count] at u2
        exact update_loop_WF fuel _ d2 d1 w2 (by unfold Load; omega) h
    · rw [if_neg hc] at h
      exact update_loop_WF fuel _ d d1 hd hl h

theorem WF_new_dict : WF new_dict :=
  ⟨by simp [new_dict], ⟨3, Nat.le_refl _, by simp [new_dict, MINSIZE]⟩,
   by simp [new_dict, MINSIZE, SIZEOF_DICT_ITEM, WORD],
   by simp [new_dict, List.countP_replicate, fresh_item]⟩

theorem reachable_WF (d : Dict) (h : Reachable d) : WF d ∧ Load d := by
  induction h with
  | new => exact ⟨WF_new_dict, by simp [Load, new_dict, MINSIZE]⟩
  | ins fuel d d1 k v _ hi ih => exact insert_WF fuel d d1 k v ih.1 ih.2 hi
  | del d k _ ih => exact ⟨(erase_WF d k ih.1).1, erase_Load d k ih.1 ih.2⟩

theorem reachableU_WF (d : Dict) (h : ReachableU d) : WF d ∧ Load d := by
  induction h with
  | new => exact ⟨WF_new_dict, by simp [Load, new_dict, MINSIZE]⟩
  | ins fuel d d1 k v _ hi ih => exact insert_WF fuel d d1 k v ih.1 ih.2 hi
  | del d k _ ih => exact ⟨(erase_WF d k ih.1).1, erase_Load d k ih.1 ih.2⟩
  | upd fuel d src d1 _ _ hu ih1 ih2 => exact update_WF fuel d src d1 ih1.1 ih1.2 ih2.1 hu

theorem reachableU_of_reachable (d : Dict) (h : Reachable d) : ReachableU d := by
  induction h with
  | new => exact ReachableU.new
  | ins fuel d d1 k v _ hi ih => exact ReachableU.ins fuel d d1 k v ih hi
  | del d k _ ih => exact ReachableU.del d k ih


/-! ## The capacity and load invariant -/

/-- C8: every table reachable from `new_dict ()` by returning calls of
`insert`, `erase` and `update` has a capacity that is a power of two and at
least 8, and satisfies `3 * table_used <= 2 * table_size`. -/
theorem load_and_capacity_invariant (d : Dict) (h : ReachableU d) :
    (∃ n, d.table_size = 2 ^ n) ∧ 8 ≤ d.table_size ∧
      3 * d.table_used ≤ 2 * d.table_size := by
  obtain ⟨hw, hl⟩ := reachableU_WF d h
  obtain ⟨n, _, hn⟩ := hw.pow
  exact ⟨⟨n, hn⟩, hw.size_pos, hl⟩

/-- C8 at the table that `update` builds from `table_grown` and
`table_four`. -/
theorem load_and_capacity_invariant_witness :
    ∃ d, update 16 table_grown table_four = some d ∧ ReachableU d ∧
      ((∃ n, d.table_size = 2 ^ n) ∧ 8 ≤ d.table_size ∧
        3 * d.table_used ≤ 2 * d.table_size) := by
  cases hu : update 16 table_grown table_four with
  | none => exact absurd hu (by decide!)
  | some d =>
    have hr : ReachableU d :=
      ReachableU.upd 16 table_grown table_four d
        (reachableU_of_reachable _ reachable_table_grown)
        (reachableU_of_reachable _ reachable_table_four) hu
    exact ⟨d, rfl, hr, load_and_capacity_invariant d hr⟩

/-! ## Erasing a key leaves the lookups of the other keys alone -/

theorem used_countP_pos (t : List dict_item) (i : Nat) (h : (slot t i).used = true) :
    0 < t.countP (fun s => s.used) := by
  have hlt := used_lt_length t i h
  have hg : (t[i]).used = true := by rw [← slot_of_lt t i hlt]; exact h
  exact List.countP_pos_iff.mpr ⟨t[i], List.getElem_mem _, hg⟩

theorem no_used_of_count_zero (t : List dict_item) (h : t.countP (fun s => s.used) = 0)
    (i : Nat) : ¬ (slot t i).used = true := by
  intro hu
  have := used_countP_pos t i hu
  omega

/-- One call of `insert_key_val_pair` keeps the occupied range tracked. -/
theorem insert_key_val_pair_Tracked (fuel : Nat) (d d1 : Dict) (key : ℚ) (val : Int)
    (hd : WF d) (ht : Tracked d) (h : insert_key_val_pair fuel d key val = some d1) :
    Tracked d1 := by
  unfold insert_key_val_pair at h
  cases hidx : find_insertion_idx fuel d key with
  | none => simp [hidx] at h
  | some idx =>
    have hle := find_insertion_idx_le fuel d key idx hidx
    rw [hd.mask] at hle
    have h8 := hd.size_pos
    have hlt : idx < d.table.length := by rw [hd.len]; omega
    have hsz : idx < d.table_size := by omega
    have hwrap : (d.table_used + 1) % WORD = d.table_used + 1 := by
      apply Nat.mod_eq_of_lt
      have := hd.used_le
      have := hd.size_lt
      unfold WORD
      omega
    rw [hwrap] at h
    simp only [hidx] at h
    by_cases hu : (slot d.table idx).used = true
    · rw [if_neg (not_not.mpr hu)] at h
      simp only [Option.some.injEq] at h
      subst h
      have hsame : ∀ i, (slot (d.table.set idx { slot d.table idx with second := val }) i).used =
          (slot d.table i).used := by
        intro i
        rw [slot_set _ _ _ _ hlt]
        by_cases hi : i = idx
        · subst hi; simp
        · simp [hi]
      intro hpos
      have b := ht hpos
      exact ⟨b.le, b.lt, by simpa only [hsame] using b.first_used,
        by simpa only [hsame] using b.last_used,
        fun i hi => b.inside i (by simpa only [hsame] using hi)⟩
    · rw [if_pos hu] at h
      simp only [Option.some.injEq] at h
      subst h
      have hnew : ∀ i, (slot (d.table.set idx ⟨true, key, val⟩) i).used =
          if i = idx then true else (slot d.table i).used := by
        intro i
        rw [slot_set _ _ _ _ hlt]
        by_cases hi : i = idx
        · subst hi; simp
        · simp [hi]
      intro _
      unfold track_table_start_end
      by_cases h1 : d.table_used + 1 = 1
      · simp only [h1, if_true]
        have hz : d.table.countP (fun s => s.used) = 0 := by
          have := hd.count
          omega
        refine ⟨Nat.le_refl _, hsz, by simp [hnew], by simp [hnew], ?_⟩
        intro i hi
        simp only [hnew] at hi
        by_cases hii : i = idx
        · subst hii; exact ⟨Nat.le_refl _, Nat.le_refl _⟩
        · rw [if_neg hii] at hi
          exact absurd hi (no_used_of_count_zero _ hz i)
      · have b := ht (by omega)
        have hb1 := b.le
        have hb2 := b.lt
        simp only [h1, if_false]
        by_cases h2 : idx > d.table_last_entry
        · simp only [h2, if_true]
          refine ⟨by simp only; omega, hsz, ?_, by simp [hnew], ?_⟩
          · simp only [hnew]
            rw [if_neg (by omega)]
            exact b.first_used
          · intro i hi
            simp only [hnew] at hi
            by_cases hii : i = idx
            · subst hii; exact ⟨by simp only; omega, Nat.le_refl _⟩
            · rw [if_neg hii] at hi
              have := b.inside i hi
              exact ⟨this.1, by simp only; omega⟩
        · simp only [h2, if_false]
          by_cases h3 : idx < d.table_first_entry
          · simp only [h3, if_true]
            refine ⟨by simp only; omega, hb2, by simp [hnew], ?_, ?_⟩
            · simp only [hnew]
              rw [if_neg (by omega)]
              exact b.last_used
            · intro i hi
              simp only [hnew] at hi
              by_cases hii : i = idx
              · subst hii; exact ⟨Nat.le_refl _, by simp only; omega⟩
              · rw [if_neg hii] at hi
                have := b.inside i hi
                exact ⟨by simp only; omega, this.2⟩
          · simp only [h3, if_false]
            refine ⟨hb1, hb2, ?_, ?_, ?_⟩
            · simp only [hnew]
              split
              · rfl
              · exact b.first_used
            · simp only [hnew]
              split
              · rfl
              · exact b.last_used
            · intro i hi
              simp only [hnew] at hi
              by_cases hii : i = idx
              · subst hii; exact ⟨by simp only; omega, by simp only; omega⟩
              · rw [if_neg hii] at hi
                exact b.inside i hi

theorem reinsert_Tracked (fuel : Nat) (l : List dict_item) :
    ∀ d d1 : Dict, WF d → Tracked d → reinsert fuel l d = some d1 → Tracked d1 := by
  induction l with
  | nil =>
    intro d d1 _ ht h
    simp only [reinsert, Option.some.injEq] at h
    exact h ▸ ht
  | cons s rest ih =>
    intro d d1 hd ht h
    simp only [reinsert] at h
    by_cases hs : s.used = true
    · rw [if_pos hs] at h
      cases hi : insert_key_val_pair fuel d s.first s.second with
      | none => simp [hi] at h
      | some d2 =>
        simp only [hi] at h
        exact ih d2 d1 (insert_key_val_pair_WF fuel d d2 _ _ hd hi).1
          (insert_key_val_pair_Tracked fuel d d2 _ _ hd ht hi) h
    · rw [if_neg hs] at h
      exact ih d d1 hd ht h

theorem resize_Tracked (fuel : Nat) (d d1 : Dict) (newsize : Nat) (hn : newsize ≤ 2 ^ 63)
    (h : resize fuel d newsize = some d1) : Tracked d1 := by
  obtain ⟨m, hm3, hm63, hts, hge, _⟩ := new_table_size_minsize newsize hn
  simp only [resize, hts, malloc_table] at h
  by_cases hfit : 2 ^ m * SIZEOF_DICT_ITEM < WORD
  · rw [if_pos hfit] at h
    simp only at h
    have hw0 : WF { table := List.replicate (2 ^ m) fresh_item, table_size := 2 ^ m,
                    table_used := 0, table_first_entry := 2 ^ m - 1, table_last_entry := 0 } :=
      ⟨by simp, ⟨m, hm3, rfl⟩, hfit, by simp [List.countP_replicate, fresh_item]⟩
    refine reinsert_Tracked fuel _ _ d1 hw0 ?_ h
    intro hpos
    simp at hpos
  · rw [if_neg hfit] at h
    simp at h

/-- A returning `insert` keeps the occupied range tracked and leaves a table
that is not empty. -/
theorem insert_Tracked (fuel : Nat) (d d1 : Dict) (key : ℚ) (value : Int)
    (hd : WF d) (ht : Tracked d) (h : insert fuel d key value = some d1) : Tracked d1 := by
  unfold insert at h
  cases hi : insert_key_val_pair fuel d key value with
  | none => simp [hi] at h
  | some d2 =>
    simp only [hi] at h
    obtain ⟨w2, s2, _, u2⟩ := insert_key_val_pair_WF fuel d d2 key value hd hi
    have t2 := insert_key_val_pair_Tracked fuel d d2 key value hd ht hi
    by_cases hc : 3 * d2.table_used > 2 * d2.table_size
    · rw [if_pos hc] at h
      have hfit := w2.size_lt
      have hmod : (d2.table_size * RESIZEFACTOR) % WORD = d2.table_size * 4 := by
        apply Nat.mod_eq_of_lt
        unfold WORD RESIZEFACTOR
        omega
      rw [hmod] at h
      exact resize_Tracked fuel d2 d1 _ (by omega) h
    · rw [if_neg hc] at h
      simp only [Option.some.injEq] at h
      exact h ▸ t2


/-- The downward walk of `erase` from `n` stops at the largest used index up
to `n`, when there is one. -/
theorem walk_last_down_spec (t : List dict_item) :
    ∀ n, (∃ i, i ≤ n ∧ (slot t i).used = true) →
      walk_last_down t n ≤ n ∧ (slot t (walk_last_down t n)).used = true ∧
        ∀ i, walk_last_down t n < i → i ≤ n → ¬ (slot t i).used = true := by
  intro n
  induction n with
  | zero =>
    rintro ⟨i, hi, hu⟩
    have : i = 0 := by omega
    subst this
    exact ⟨Nat.le_refl _, by simpa [walk_last_down] using hu,
      fun i h1 h2 => by simp [walk_last_down] at h1; omega⟩
  | succ n ih =>
    rintro ⟨i, hi, hu⟩
    by_cases hn : (slot t (n + 1)).used = true
    · have hw : walk_last_down t (n + 1) = n + 1 := by
        simp only [walk_last_down]
        rw [if_neg (not_not.mpr hn)]
      rw [hw]
      exact ⟨Nat.le_refl _, hn, fun i h1 h2 => by omega⟩
    · have hw : walk_last_down t (n + 1) = walk_last_down t n := by
        simp only [walk_last_down]
        rw [if_pos hn]
      have hin : i ≤ n := by
        by_contra hc
        have : i = n + 1 := by omega
        subst this
        exact hn hu
      obtain ⟨h1, h2, h3⟩ := ih ⟨i, hin, hu⟩
      rw [hw]
      refine ⟨by omega, h2, ?_⟩
      intro k hk1 hk2
      by_cases hk : k = n + 1
      · subst hk; exact hn
      · exact h3 k hk1 (by omega)

/-- The upward walk of `erase` from `f` stops at the smallest used index from
`f` on, when there is one inside the array and within the fuel. -/
theorem walk_first_up_spec (t : List dict_item) (size : Nat) :
    ∀ fuel f, (∃ i, f ≤ i ∧ i < f + fuel ∧ i < size ∧ (slot t i).used = true) →
      f ≤ walk_first_up t size fuel f ∧
        (slot t (walk_first_up t size fuel f)).used = true ∧
        ∀ i, f ≤ i → i < walk_first_up t size fuel f → ¬ (slot t i).used = true := by
  intro fuel
  induction fuel with
  | zero =>
    rintro f ⟨i, h1, h2, _, _⟩
    omega
  | succ n ih =>
    rintro f ⟨i, h1, h2, h3, hu⟩
    by_cases hf : (slot t f).used = true
    · have hw : walk_first_up t size (n + 1) f = f := by
        simp only [walk_first_up]
        rw [if_neg (fun hh => hh.1 hf)]
      rw [hw]
      exact ⟨Nat.le_refl _, hf, fun k hk1 hk2 => by omega⟩
    · have hif : f ≠ i := by
        intro e
        subst e
        exact hf hu
      have hw : walk_first_up t size (n + 1) f = walk_first_up t size n (f + 1) := by
        simp only [walk_first_up]
        rw [if_pos ⟨hf, by omega⟩]
      obtain ⟨g1, g2, g3⟩ := ih (f + 1) ⟨i, by omega, by omega, h3, hu⟩
      rw [hw]
      refine ⟨by omega, g2, ?_⟩
      intro k hk1 hk2
      by_cases hk : k = f
      · subst hk; exact hf
      · exact g3 k (by omega) hk2

theorem erase_bounds (d : Dict) (key : ℚ) (j : Nat) (h : erase_find d key = some j) :
    ((d.table_used + WORD - 1) % WORD = 0 →
      (erase d key).table_first_entry = d.table_size ∧ (erase d key).table_last_entry = 0) ∧
    ((d.table_used + WORD - 1) % WORD ≠ 0 →
      (erase d key).table_last_entry =
        (if j = d.table_last_entry then
          walk_last_down (d.table.set j { slot d.table j with used := false }) d.table_last_entry
         else d.table_last_entry) ∧
      (erase d key).table_first_entry =
        (if j = d.table_first_entry then
          walk_first_up (d.table.set j { slot d.table j with used := false }) d.table_size
            d.table_size d.table_first_entry
         else d.table_first_entry)) := by
  unfold erase
  simp only [h]
  constructor
  · intro h0
    rw [if_pos h0]
    exact ⟨rfl, rfl⟩
  · intro h0
    rw [if_neg h0]
    exact ⟨rfl, rfl⟩

/-- The call `erase` keeps the occupied range tracked. -/
theorem erase_Tracked (d : Dict) (key : ℚ) (hd : WF d) (ht : Tracked d) :
    Tracked (erase d key) := by
  cases hf : erase_find d key with
  | none => rw [erase_none d key hf]; exact ht
  | some j =>
    obtain ⟨htab, hs, hu⟩ := erase_table d key j hf
    obtain ⟨hused, _, hj1, hj2⟩ := erase_find_some d key j hf
    obtain ⟨_, hb⟩ := erase_bounds d key j hf
    have hw1 := (erase_WF d key hd).1
    have hlt := used_lt_length d.table j hused
    have hpos0 : 0 < d.table_used := by rw [hd.count]; exact used_countP_pos _ _ hused
    have b := ht hpos0
    have hslot : ∀ i, (slot (erase d key).table i).used =
        if i = j then false else (slot d.table i).used := by
      intro i
      rw [htab, slot_set _ _ _ _ hlt]
      by_cases hi : i = j
      · subst hi; simp
      · simp [hi]
    intro hpos
    have hne : (d.table_used + WORD - 1) % WORD ≠ 0 := by rw [← hu]; omega
    obtain ⟨hlast, hfirst⟩ := hb hne
    rw [← htab] at hlast hfirst
    -- some slot other than `j` is used
    obtain ⟨i0, hi0⟩ : ∃ i, (slot (erase d key).table i).used = true := by
      rw [hw1.count] at hpos
      obtain ⟨a, ha, hau⟩ := List.countP_pos_iff.mp hpos
      obtain ⟨n, hn, rfl⟩ := List.getElem_of_mem ha
      exact ⟨n, by rw [slot_of_lt _ n hn]; exact hau⟩
    have hi0j : i0 ≠ j := by
      intro e
      rw [hslot, if_pos e] at hi0
      exact Bool.false_ne_true hi0
    have hi0u : (slot d.table i0).used = true := by
      rw [hslot, if_neg hi0j] at hi0
      exact hi0
    have hi0b := b.inside i0 hi0u
    have hback : ∀ i, (slot (erase d key).table i).used = true → (slot d.table i).used = true := by
      intro i hi
      rw [hslot] at hi
      by_cases hij : i = j
      · rw [if_pos hij] at hi; exact absurd hi Bool.false_ne_true
      · rw [if_neg hij] at hi; exact hi
    have hkeep : ∀ i, i ≠ j → (slot d.table i).used = true →
        (slot (erase d key).table i).used = true := by
      intro i hij hi
      rw [hslot, if_neg hij]
      exact hi
    by_cases hjl : j = d.table_last_entry
    · have hjf : j ≠ d.table_first_entry := by
        intro e
        omega
      rw [if_pos hjl] at hlast
      rw [if_neg hjf] at hfirst
      obtain ⟨w1, w2, w3⟩ := walk_last_down_spec (erase d key).table d.table_last_entry
        ⟨i0, hi0b.2, hi0⟩
      rw [← hlast] at w1 w2 w3
      have hfu := hkeep d.table_first_entry (fun e => hjf e.symm) b.first_used
      have hb1 := b.le
      have hb2 := b.lt
      refine ⟨?_, ?_, ?_, w2, ?_⟩
      · rw [hfirst]
        by_contra hc
        exact w3 d.table_first_entry (by omega) b.le hfu
      · rw [hs]; omega
      · rw [hfirst]; exact hfu
      · intro i hi
        have hin := b.inside i (hback i hi)
        rw [hfirst]
        refine ⟨hin.1, ?_⟩
        by_contra hc
        exact w3 i (by omega) hin.2 hi
    · rw [if_neg hjl] at hlast
      have hlu := hkeep d.table_last_entry (fun e => hjl e.symm) b.last_used
      have hb1 := b.le
      have hb2 := b.lt
      by_cases hjf : j = d.table_first_entry
      · rw [if_pos hjf] at hfirst
        obtain ⟨w1, w2, w3⟩ := walk_first_up_spec (erase d key).table d.table_size
          d.table_size d.table_first_entry
          ⟨d.table_last_entry, b.le, by omega, b.lt, hlu⟩
        rw [← hfirst] at w1 w2 w3
        refine ⟨?_, ?_, w2, ?_, ?_⟩
        · rw [hlast]
          by_contra hc
          exact w3 d.table_last_entry b.le (by omega) hlu
        · rw [hs, hlast]; exact b.lt
        · rw [hlast]; exact hlu
        · intro i hi
          have hin := b.inside i (hback i hi)
          rw [hlast]
          refine ⟨?_, hin.2⟩
          by_contra hc
          exact w3 i hin.1 (by omega) hi
      · rw [if_neg hjf] at hfirst
        refine ⟨by rw [hfirst, hlast]; exact b.le, by rw [hs, hlast]; exact b.lt, ?_, ?_, ?_⟩
        · rw [hfirst]; exact hkeep _ (fun e => hjf e.symm) b.first_used
        · rw [hlast]; exact hlu
        · intro i hi
          rw [hfirst, hlast]
          exact b.inside i (hback i hi)

theorem Tracked_new_dict : Tracked new_dict := by
  intro h
  simp [new_dict] at h

/-- Every table reachable by `insert` and `erase` tracks its occupied
range. -/
theorem reachable_Tracked (d : Dict) (h : Reachable d) : Tracked d := by
  induction h with
  | new => exact Tracked_new_dict
  | ins fuel d d1 k v hr hi ih => exact insert_Tracked fuel d d1 k v (reachable_WF d hr).1 ih hi
  | del d k hr ih => exact erase_Tracked d k (reachable_WF d hr).1 ih


/-! ## What `erase` and the walk do on reachable tables -/

/-- The slot array read back through `slot` over all its indices. -/
theorem map_slot_range (t : List dict_item) : (List.range' 0 t.length).map (slot t) = t := by
  apply List.ext_getElem
  · simp
  · intro i h1 h2
    simp only [List.getElem_map, List.getElem_range', Nat.zero_add, Nat.one_mul]
    exact slot_of_lt t i h2

theorem filter_slots_nil (t : List dict_item) (a n : Nat)
    (h : ∀ i, a ≤ i → i < a + n → ¬ (slot t i).used = true) :
    ((List.range' a n).map (slot t)).filter (fun s => s.used) = [] := by
  rw [List.filter_eq_nil_iff]
  intro x hx
  rw [List.mem_map] at hx
  obtain ⟨i, hi, rfl⟩ := hx
  rw [List.mem_range'_1] at hi
  exact h i hi.1 hi.2

/-- In a well-formed table that tracks its occupied range, the slots from
`table_first_entry` to `table_last_entry` hold the same used slots, in the
same order, as the whole array. -/
theorem span_filter_eq (d : Dict) (hd : WF d) (ht : Tracked d) :
    (span d.table d.table_first_entry d.table_last_entry).filter (fun s => s.used) =
      d.table.filter (fun s => s.used) := by
  by_cases hpos : 0 < d.table_used
  · have b := ht hpos
    have hb1 := b.le
    have hb2 := b.lt
    have hlen := hd.len
    have hsplit : List.range' 0 d.table.length =
        List.range' 0 d.table_first_entry ++
          (List.range' d.table_first_entry (d.table_last_entry + 1 - d.table_first_entry) ++
            List.range' (d.table_last_entry + 1) (d.table.length - (d.table_last_entry + 1))) := by
      have e1 : d.table_first_entry + (d.table_last_entry + 1 - d.table_first_entry) =
          d.table_last_entry + 1 := by omega
      have h2 := List.range'_append_1 d.table_first_entry
        (d.table_last_entry + 1 - d.table_first_entry) (d.table.length - (d.table_last_entry + 1))
      rw [e1] at h2
      rw [h2]
      have h3 := List.range'_append_1 0 d.table_first_entry
        (d.table.length - (d.table_last_entry + 1) +
          (d.table_last_entry + 1 - d.table_first_entry))
      rw [Nat.zero_add] at h3
      rw [h3]
      congr 1
      omega
    have hall : d.table.filter (fun s => s.used) =
        ((List.range' 0 d.table.length).map (slot d.table)).filter (fun s => s.used) := by
      rw [map_slot_range]
    rw [hall, hsplit, List.map_append, List.map_append, List.filter_append, List.filter_append,
      filter_slots_nil d.table 0 d.table_first_entry
        (fun i _ h2 hu => by have := (b.inside i hu).1; omega),
      filter_slots_nil d.table (d.table_last_entry + 1) _
        (fun i h1 _ hu => by have := (b.inside i hu).2; omega)]
    simp [span]
  · have hz : d.table.countP (fun s => s.used) = 0 := by
      have := hd.count
      omega
    have h1 : d.table.filter (fun s => s.used) = [] := by
      apply List.length_eq_zero.mp
      rw [← List.countP_eq_length_filter]
      exact hz
    rw [h1]
    exact filter_slots_nil d.table _ _ (fun i _ _ => no_used_of_count_zero _ hz i)

/-- On a reachable table the walk of `print_dict` yields the key and value of
every used slot of the array, once each and in slot order. -/
theorem walk_eq_used_slots (d : Dict) (h : Reachable d) :
    walk d = (d.table.filter (fun s => s.used)).map (fun s => (s.first, s.second)) := by
  unfold walk
  rw [span_filter_eq d (reachable_WF d h).1 (reachable_Tracked d h)]

/-- On a reachable table `erase (k)` finds a used slot of key `k` whenever
there is one. -/
theorem erase_find_of_used (d : Dict) (key : ℚ) (h : Reachable d) (q : Nat)
    (hq : (slot d.table q).used = true ∧ (slot d.table q).first = key) :
    ∃ j, erase_find d key = some j := by
  have hw := (reachable_WF d h).1
  have hpos : 0 < d.table_used := by rw [hw.count]; exact used_countP_pos _ _ hq.1
  have b := reachable_Tracked d h hpos
  have hin := b.inside q hq.1
  cases hf : erase_find d key with
  | some j => exact ⟨j, rfl⟩
  | none =>
    unfold erase_find at hf
    rw [List.find?_eq_none] at hf
    have := hf q (by rw [List.mem_range'_1]; omega)
    simp [hq.1, hq.2] at this

/-- On a reachable table, when `contains (k)` is true `erase (k)` lowers
`size ()` by exactly one. -/
theorem erase_size_of_contains (d : Dict) (key : ℚ) (h : Reachable d)
    (hc : contains d key = true) : size (erase d key) + 1 = size d := by
  have hw := (reachable_WF d h).1
  unfold contains at hc
  by_cases hpos : d.table_used > 0
  · rw [if_pos hpos] at hc
    by_cases hq : (slot d.table (find_idx d key)).used = true ∧
        (slot d.table (find_idx d key)).first = key
    · obtain ⟨j, hj⟩ := erase_find_of_used d key h _ hq
      obtain ⟨_, _, hu⟩ := erase_table d key j hj
      have hwrap : (d.table_used + WORD - 1) % WORD = d.table_used - 1 := by
        have h2 := hw.used_le
        have h3 := hw.size_lt
        have h4 : d.table_used + WORD - 1 = (d.table_used - 1) + WORD := by omega
        rw [h4, Nat.add_mod_right]
        apply Nat.mod_eq_of_lt
        unfold WORD
        omega
      unfold size
      rw [hu, hwrap]
      omega
    · simp only [hq, if_false] at hc
      exact absurd hc Bool.false_ne_true
  · rw [if_neg hpos] at hc
    exact absurd hc Bool.false_ne_true

/-- When no used slot holds `k`, `erase (k)` changes nothing. -/
theorem erase_of_absent (d : Dict) (key : ℚ)
    (h : ∀ i, ¬ ((slot d.table i).used = true ∧ (slot d.table i).first = key)) :
    erase d key = d := by
  apply erase_none
  unfold erase_find
  rw [List.find?_eq_none]
  intro i _
  simpa using h i

theorem reachable_table_negative : Reachable table_negative :=
  Reachable.ins 16 new_dict table_negative (-1) 5 Reachable.new (by decide!)

theorem reachable_table_zero_behind : Reachable table_zero_behind :=
  reachable_run 16 [Call.ins 8 1, Call.ins 0 2, Call.del 8]
    new_dict table_zero_behind Reachable.new (by decide!)

/-- C13, at the input where the code breaks it: in the reachable table with
the single pair (-1, 5), `max_entry ()` returns 0, the value `max` starts
from, and not the stored key -1; `min_entry ()`, which starts from `DBL_MAX`,
returns -1. -/
theorem max_entry_misses_negative_key :
    Reachable table_negative ∧
    size table_negative = 1 ∧
    walk table_negative = [(-1, 5)] ∧
    max_entry table_negative = 0 ∧
    min_entry table_negative = -1 :=
  ⟨reachable_table_negative, by decide!, by decide!, by decide!, by decide!⟩

/-- C14, at the input where the code breaks it: the reachable source
`table_zero_behind` holds key 0 in slot 1, behind the erased slot 0 whose key
is still 8, and `get (source, 0)` returns the entry.  `copy_nodes` into a new
table copies the used slot only; in the target slot 0 has key zero, `find_idx`
stops there on `first == key`, the slot is not used and `get (target, 0)` is
`NULL`. -/
theorem copy_loses_key_zero :
    Reachable table_zero_behind ∧
    copy_nodes new_dict table_zero_behind = some table_zero_copied ∧
    table_zero_copied.table_size = table_zero_behind.table_size ∧
    size table_zero_copied = size table_zero_behind ∧
    get table_zero_behind 0 = some ⟨true, 0, 2⟩ ∧
    get table_zero_copied 0 = none :=
  ⟨reachable_table_zero_behind, by decide!, by decide!, by decide!, by decide!, by decide!⟩

theorem hash_double_intCast (n : ℤ) : hash_double (n : ℚ) = (n % (WORD : ℤ)).toNat := by
  have hnum : ((n : ℚ)).num = n := Rat.num_intCast n
  have hden : ((n : ℚ)).den = 1 := Rat.den_intCast n
  have htd : Int.tdiv n ((1 : ℕ) : ℤ) = n := by simp
  unfold hash_double
  simp only [hnum, hden, htd, sub_self, if_true]
  unfold to_ulong
  rw [hnum, hden, htd]

/-- C15: for a key whose value is a whole number `n` with
`-2 ^ 63 <= n < 2 ^ 63`, `hash_double` is `n` reduced modulo `2 ^ 64`, which
is `n` itself when `0 <= n`; keys that compare equal to `n` have that hash
too. -/
theorem hash_of_whole_number (n : ℤ) (hlo : -(2 : ℤ) ^ 63 ≤ n) (hhi : n < (2 : ℤ) ^ 63) :
    hash_double (n : ℚ) = (n % ((2 : ℤ) ^ 64)).toNat ∧
      (0 ≤ n → hash_double (n : ℚ) = n.toNat) ∧
      ∀ k : ℚ, k = (n : ℚ) → hash_double k = hash_double (n : ℚ) := by
  have hw : ((WORD : ℕ) : ℤ) = (2 : ℤ) ^ 64 := by simp [WORD]
  refine ⟨?_, ?_, ?_⟩
  · rw [hash_double_intCast, hw]
  · intro h0
    rw [hash_double_intCast, hw, Int.emod_eq_of_lt h0 (by omega)]
  · intro k hk
    rw [hk]

/-- C15 at the keys -7 and 1048640. -/
theorem hash_of_whole_number_witness :
    (-(2 : ℤ) ^ 63 ≤ -7 ∧ (-7 : ℤ) < (2 : ℤ) ^ 63) ∧
      hash_double (((-7 : ℤ)) : ℚ) = 18446744073709551609 ∧
      hash_double ((1048640 : ℤ) : ℚ) = 1048640 := by
  refine ⟨⟨by norm_num, by norm_num⟩, ?_, ?_⟩
  · have h := (hash_of_whole_number (-7) (by norm_num) (by norm_num)).1
    rw [h]
    decide
  · have h := (hash_of_whole_number 1048640 (by norm_num) (by norm_num)).2.1 (by norm_num)
    rw [h]
    decide

theorem resize_table_size (fuel : Nat) (d d1 : Dict) (newsize : Nat) (hn : newsize ≤ 2 ^ 63)
    (h : resize fuel d newsize = some d1) :
    d1.table_size = new_table_size newsize 64 MINSIZE := by
  obtain ⟨m, hm3, hm63, hts, hge, _⟩ := new_table_size_minsize newsize hn
  simp only [resize, hts, malloc_table] at h
  by_cases hfit : 2 ^ m * SIZEOF_DICT_ITEM < WORD
  · rw [if_pos hfit] at h
    simp only at h
    have hw0 : WF { table := List.replicate (2 ^ m) fresh_item, table_size := 2 ^ m,
                    table_used := 0, table_first_entry := 2 ^ m - 1, table_last_entry := 0 } :=
      ⟨by simp, ⟨m, hm3, rfl⟩, hfit, by simp [List.countP_replicate, fresh_item]⟩
    obtain ⟨_, s1, _⟩ := reinsert_WF fuel _ _ d1 hw0 h
    rw [s1, hts]
  · rw [if_neg hfit] at h
    simp at h

/-! ## The slot chosen by the insertion probe -/

theorem find_insertion_loop_slot (t : List dict_item) (mask : Nat) (key : ℚ) (freeslot : Nat)
    (hf : freeslot = WORD - 1 ∨ (slot t freeslot).used = false) :
    ∀ fuel i perturb r, find_insertion_loop t mask key freeslot fuel i perturb = some r →
      (slot t r).used = false ∨ ((slot t r).used = true ∧ (slot t r).first = key) := by
  intro fuel
  induction fuel with
  | zero => intro i perturb r h; simp [find_insertion_loop] at h
  | succ n ih =>
    intro i perturb r h
    simp only [find_insertion_loop] at h
    split at h
    · exact ih _ _ _ h
    · split at h
      · rename_i hu
        simp only [Option.some.injEq] at h
        subst h
        split
        · exact Or.inl hu
        · rename_i hne
          rcases hf with hf | hf
          · exact absurd hf hne
          · exact Or.inl hf
      · rename_i hu
        split at h
        · rename_i hk
          simp only [Option.some.injEq] at h
          subst h
          exact Or.inr ⟨by simpa using hu, hk⟩
        · exact ih _ _ _ h

theorem find_insertion_idx_slot (fuel : Nat) (d : Dict) (key : ℚ) (r : Nat)
    (h : find_insertion_idx fuel d key = some r) :
    (slot d.table r).used = false ∨
      ((slot d.table r).used = true ∧ (slot d.table r).first = key) := by
  simp only [find_insertion_idx] at h
  split at h
  · rename_i hk
    simp only [Option.some.injEq] at h
    subst h
    cases hu : (slot d.table (hash_double key &&& mask_of d.table_size &&&
        mask_of d.table_size)).used with
    | false => exact Or.inl rfl
    | true => exact Or.inr ⟨rfl, hk⟩
  · refine find_insertion_loop_slot _ _ _ _ ?_ _ _ _ _ h
    split
    · rename_i hu
      exact Or.inr hu
    · exact Or.inl rfl

/-- C20: in a table whose capacity is a power of two and whose slot array has
that many slots, an index returned by `find_insertion_idx (k)` is below the
capacity and its slot is not used or is used with key `k`;
`insert_key_val_pair (k, v)` then returns, leaves (USED, k, v) in that slot
and leaves every other slot as it was. -/
theorem insert_touches_one_slot (fuel : Nat) (d : Dict) (k : ℚ) (v : Int) (idx n : Nat)
    (hpow : d.table_size = 2 ^ n) (hn : n < 64) (hlen : d.table.length = d.table_size)
    (h : find_insertion_idx fuel d k = some idx) :
    idx < d.table_size ∧
      ((slot d.table idx).used = false ∨
        ((slot d.table idx).used = true ∧ (slot d.table idx).first = k)) ∧
      ∃ d1, insert_key_val_pair fuel d k v = some d1 ∧
        slot d1.table idx = ⟨true, k, v⟩ ∧
        ∀ i, i ≠ idx → slot d1.table i = slot d.table i := by
  have hpos : 0 < d.table_size := by rw [hpow]; exact Nat.pos_pow_of_pos n (by norm_num)
  have hle : d.table_size ≤ WORD := by
    rw [hpow]
    exact Nat.pow_le_pow_right (by norm_num) (by omega)
  have hidx : idx < d.table_size := by
    have h1 := find_insertion_idx_le fuel d k idx h
    rw [mask_of_eq _ hpos hle] at h1
    omega
  have hlt : idx < d.table.length := by rw [hlen]; exact hidx
  have hs := find_insertion_idx_slot fuel d k idx h
  refine ⟨hidx, hs, ?_⟩
  unfold insert_key_val_pair
  simp only [h]
  by_cases hu : (slot d.table idx).used = true
  · rw [if_neg (not_not.mpr hu)]
    refine ⟨_, rfl, ?_, ?_⟩
    · simp only
      rw [slot_set _ _ _ _ hlt, if_pos rfl]
      rcases hs with hs | hs
      · rw [hs] at hu; exact absurd hu Bool.false_ne_true
      · rw [hs.1, hs.2]
    · intro i hi
      simp only
      rw [slot_set _ _ _ _ hlt, if_neg hi]
  · rw [if_pos hu]
    refine ⟨_, rfl, ?_, ?_⟩
    · rw [track_table]
      simp only
      rw [slot_set _ _ _ _ hlt, if_pos rfl]
    · intro i hi
      rw [track_table]
      simp only
      rw [slot_set _ _ _ _ hlt, if_neg hi]

/-- C20 at the table `table_four` and the key 1048640, whose probe returns
slot 4. -/
theorem insert_touches_one_slot_witness :
    table_four.table_size = 2 ^ 3 ∧ table_four.table.length = table_four.table_size ∧
      find_insertion_idx 16 table_four 1048640 = some 4 ∧
      (4 < table_four.table_size ∧
        ((slot table_four.table 4).used = false ∨
          ((slot table_four.table 4).used = true ∧ (slot table_four.table 4).first = 1048640)) ∧
        ∃ d1, insert_key_val_pair 16 table_four 1048640 7 = some d1 ∧
          slot d1.table 4 = ⟨true, 1048640, 7⟩ ∧
          ∀ i, i ≠ 4 → slot d1.table i = slot table_four.table i) :=
  ⟨by decide, by decide, by decide!,
   insert_touches_one_slot 16 table_four 1048640 7 4 3 (by decide) (by decide) (by decide)
     (by decide!)⟩


/-! ## The probe sequence visits every slot -/

theorem lcg_iterate (m x : Nat) : lcg^[m] x = 5 ^ m * x + lcg_offset m := by
  induction m with
  | zero => simp [lcg_offset]
  | succ m ih =>
    rw [Function.iterate_succ_apply', ih]
    simp only [lcg, lcg_offset]
    ring

theorem lcg_offset_pow (m : Nat) : 4 * lcg_offset m + 1 = 5 ^ m := by
  induction m with
  | zero => simp [lcg_offset]
  | succ m ih =>
    simp only [lcg_offset, pow_succ]
    omega

theorem lcg_offset_double (m : Nat) :
    lcg_offset (2 * m) = lcg_offset m * (4 * lcg_offset m + 2) := by
  have h1 := lcg_offset_pow (2 * m)
  have h2 := lcg_offset_pow m
  have h3 : 5 ^ (2 * m) = 5 ^ m * 5 ^ m := by rw [two_mul, pow_add]
  rw [h3, ← h2] at h1
  have h4 : 4 * lcg_offset (2 * m) + 1 = 4 * (lcg_offset m * (4 * lcg_offset m + 2)) + 1 := by
    rw [h1]; ring
  omega

/-- The constant term of the `2 ^ n`-fold step is `2 ^ n` times an odd
number. -/
theorem lcg_offset_two_pow (n : Nat) : ∃ t, lcg_offset (2 ^ n) = 2 ^ n * (2 * t + 1) := by
  induction n with
  | zero => exact ⟨0, by simp [lcg_offset]⟩
  | succ n ih =>
    obtain ⟨t, ht⟩ := ih
    refine ⟨2 * t * lcg_offset (2 ^ n) + t + lcg_offset (2 ^ n), ?_⟩
    have h2 : 2 ^ (n + 1) = 2 * 2 ^ n := by rw [pow_succ]; ring
    rw [h2, lcg_offset_double]
    generalize lcg_offset (2 ^ n) = o at ht ⊢
    generalize (2 : Nat) ^ n = p at ht ⊢
    subst ht
    ring

/-- The `2 ^ n`-fold step moves `x` by `2 ^ n` times an odd number. -/
theorem lcg_two_pow (n x : Nat) : ∃ u, lcg^[2 ^ n] x = x + 2 ^ n * (2 * u + 1) := by
  obtain ⟨t, ht⟩ := lcg_offset_two_pow n
  refine ⟨4 * t * x + t + 2 * x, ?_⟩
  rw [lcg_iterate, ← lcg_offset_pow, ht]
  ring

/-- Full period of `x ↦ 5 x + 1` modulo `2 ^ n`: from every start `x` the
first `2 ^ n` iterates reach every residue `j`. -/
theorem lcg_cover (n : Nat) :
    ∀ x j : Nat, ∃ m, m < 2 ^ n ∧ (((2 ^ n : Nat) : ℤ) ∣ ((lcg^[m] x : Nat) : ℤ) - (j : ℤ)) := by
  induction n with
  | zero => intro x j; exact ⟨0, by norm_num, by simp⟩
  | succ n ih =>
    intro x j
    obtain ⟨m, hm, c, hc⟩ := ih x j
    have hpow : (2 : Nat) ^ (n + 1) = 2 * 2 ^ n := by rw [pow_succ]; ring
    rcases Int.even_or_odd c with ⟨c', hc'⟩ | ⟨c', hc'⟩
    · refine ⟨m, by omega, c', ?_⟩
      rw [hc, hc', hpow]
      push_cast
      ring
    · obtain ⟨u, hu⟩ := lcg_two_pow n (lcg^[m] x)
      refine ⟨2 ^ n + m, by omega, c' + (u : ℤ) + 1, ?_⟩
      rw [Function.iterate_add_apply, hu, hpow]
      push_cast
      push_cast at hc
      have : ((lcg^[m] x : Nat) : ℤ) = (j : ℤ) + 2 ^ n * c := by linarith
      rw [this, hc']
      ring

theorem lcg_cover_mod (n x j : Nat) (hj : j < 2 ^ n) :
    ∃ m, m < 2 ^ n ∧ (lcg^[m] x) % 2 ^ n = j := by
  obtain ⟨m, hm, hdvd⟩ := lcg_cover n x j
  refine ⟨m, hm, ?_⟩
  have h1 : j ≡ lcg^[m] x [MOD 2 ^ n] := (Nat.modEq_iff_dvd).mpr hdvd
  have h2 : j % 2 ^ n = (lcg^[m] x) % 2 ^ n := h1
  rw [← h2]
  exact Nat.mod_eq_of_lt hj

theorem probe_state_snd (hash mask : Nat) (k : Nat) :
    (probe_state hash mask k).2 = hash >>> (5 * k) := by
  induction k with
  | zero => simp [probe_state]
  | succ k ih =>
    simp only [probe_state, ih, PERTURB_SHIFT]
    rw [← Nat.shiftRight_add]
    rfl

theorem perturb_dies (hash k : Nat) (hk : hash ≤ k) : hash >>> (5 * k) = 0 := by
  rw [Nat.shiftRight_eq_div_pow]
  apply Nat.div_eq_of_lt
  calc hash < 2 ^ hash := Nat.lt_two_pow hash
    _ ≤ 2 ^ (5 * k) := Nat.pow_le_pow_right (by norm_num) (by omega)

theorem mask_two_pow (n : Nat) (hn : n ≤ 64) (x : Nat) : x &&& mask_of (2 ^ n) = x % 2 ^ n := by
  have hpos : 0 < 2 ^ n := Nat.pos_pow_of_pos n (by norm_num)
  have hle : 2 ^ n ≤ WORD := Nat.pow_le_pow_right (by norm_num) hn
  rw [mask_of_eq _ hpos hle, Nat.and_pow_two_sub_one_eq_mod]

theorem word_mod_two_pow (n : Nat) (hn : n ≤ 64) (x : Nat) : x % WORD % 2 ^ n = x % 2 ^ n :=
  Nat.mod_mod_of_dvd x (Nat.pow_dvd_pow 2 hn)

/-- Once the perturbation is zero the probe index follows `x ↦ 5 x + 1`
modulo the capacity. -/
theorem probe_state_lcg (hash n : Nat) (hn : n ≤ 64) (s : Nat) (hs : hash ≤ s) (m : Nat) :
    (probe_state hash (mask_of (2 ^ n)) (s + m)).1 % 2 ^ n =
      (lcg^[m] (probe_state hash (mask_of (2 ^ n)) s).1) % 2 ^ n := by
  induction m with
  | zero => rfl
  | succ m ih =>
    have hp : (probe_state hash (mask_of (2 ^ n)) (s + m)).2 = 0 := by
      rw [probe_state_snd]; exact perturb_dies hash (s + m) (by omega)
    rw [← Nat.add_assoc, Function.iterate_succ_apply']
    simp only [probe_state, hp, lcg, Nat.add_zero]
    rw [word_mod_two_pow n hn]
    have h1 : (probe_state hash (mask_of (2 ^ n)) (s + m)).1 ≡
        lcg^[m] (probe_state hash (mask_of (2 ^ n)) s).1 [MOD 2 ^ n] := ih
    have h2 : (probe_state hash (mask_of (2 ^ n)) (s + m)).1 * 5 + 1 ≡
        5 * lcg^[m] (probe_state hash (mask_of (2 ^ n)) s).1 + 1 [MOD 2 ^ n] := by
      rw [Nat.mul_comm]
      exact (h1.mul_left 5).add_right 1
    exact h2

/-- From every round on, the probe sequence of every hash reaches every slot
index of a table of `2 ^ n` slots. -/
theorem probe_covers_from (hash n : Nat) (hn : n ≤ 64) (j : Nat) (hj : j < 2 ^ n) (s : Nat) :
    ∃ k, s ≤ k ∧ probe hash (mask_of (2 ^ n)) k = j := by
  obtain ⟨m, _, hm⟩ := lcg_cover_mod n (probe_state hash (mask_of (2 ^ n)) (s + hash)).1 j hj
  refine ⟨s + hash + m, by omega, ?_⟩
  unfold probe
  rw [mask_two_pow n hn, probe_state_lcg hash n hn (s + hash) (by omega) m]
  exact hm

theorem probe_zero (hash n : Nat) (hn : n ≤ 64) :
    probe hash (mask_of (2 ^ n)) 0 = hash % 2 ^ n := by
  unfold probe
  simp only [probe_state]
  rw [mask_two_pow n hn, mask_two_pow n hn, Nat.mod_mod]

theorem probe_succ (hash n : Nat) (hn : n ≤ 64) (k : Nat) :
    probe hash (mask_of (2 ^ n)) (k + 1) =
      (5 * probe hash (mask_of (2 ^ n)) k + hash >>> (5 * k) + 1) % 2 ^ n := by
  unfold probe
  simp only [probe_state]
  rw [mask_two_pow n hn, mask_two_pow n hn, word_mod_two_pow n hn, probe_state_snd]
  have h1 : (probe_state hash (mask_of (2 ^ n)) k).1 % 2 ^ n ≡
      (probe_state hash (mask_of (2 ^ n)) k).1 [MOD 2 ^ n] := Nat.mod_modEq _ _
  have h2 : 5 * ((probe_state hash (mask_of (2 ^ n)) k).1 % 2 ^ n) + hash >>> (5 * k) + 1 ≡
      (probe_state hash (mask_of (2 ^ n)) k).1 * 5 + hash >>> (5 * k) + 1 [MOD 2 ^ n] := by
    rw [Nat.mul_comm (probe_state hash (mask_of (2 ^ n)) k).1 5]
    exact ((h1.mul_left 5).add_right _).add_right 1
  exact h2.symm

/-- C16: for a capacity `C = 2 ^ n` of at least 8 and every hash `h`, the
slot indices that `find_insertion_idx` and `find_idx` look at start with
`h mod C`, follow `i' = (5 * i + perturb + 1) mod C` with the perturbation
`h >> 5 k` in round `k`, and reach every slot index below `C`. -/
theorem probe_covers_table (hash n : Nat) (hn3 : 3 ≤ n) (hn : n ≤ 63) :
    probe hash (mask_of (2 ^ n)) 0 = hash % 2 ^ n ∧
      (∀ k, probe hash (mask_of (2 ^ n)) (k + 1) =
        (5 * probe hash (mask_of (2 ^ n)) k + hash >>> (5 * k) + 1) % 2 ^ n) ∧
      ∀ j, j < 2 ^ n → ∃ k, probe hash (mask_of (2 ^ n)) k = j := by
  refine ⟨probe_zero hash n (by omega), fun k => probe_succ hash n (by omega) k, ?_⟩
  intro j hj
  obtain ⟨k, _, hk⟩ := probe_covers_from hash n (by omega) j hj 0
  exact ⟨k, hk⟩

/-- C16 at the hash 1048640 and capacity 8: slot 4 is reached, in round 9. -/
theorem probe_covers_table_witness :
    (3 ≤ 3 ∧ 3 ≤ 63) ∧ (∃ k, probe 1048640 (mask_of (2 ^ 3)) k = 4) ∧
      probe 1048640 (mask_of (2 ^ 3)) 9 = 4 :=
  ⟨⟨by decide, by decide⟩,
   (probe_covers_table 1048640 3 (by decide) (by decide)).2.2 4 (by decide), by decide⟩


/-! ## Inserting a new key into a table without erased slots -/

theorem max_fold_spec (l : List dict_item) :
    ∀ m0 : ℚ,
      m0 ≤ l.foldl (fun m s => if s.used = true ∧ s.first > m then s.first else m) m0 ∧
      (∀ s, s ∈ l → s.used = true →
        s.first ≤ l.foldl (fun m s => if s.used = true ∧ s.first > m then s.first else m) m0) ∧
      (l.foldl (fun m s => if s.used = true ∧ s.first > m then s.first else m) m0 = m0 ∨
        ∃ s, s ∈ l ∧ s.used = true ∧
          s.first = l.foldl (fun m s => if s.used = true ∧ s.first > m then s.first else m) m0) := by
  induction l with
  | nil => intro m0; exact ⟨le_refl _, fun s hs => by simp at hs, Or.inl rfl⟩
  | cons a rest ih =>
    intro m0
    simp only [List.foldl_cons]
    by_cases hc : a.used = true ∧ a.first > m0
    · rw [if_pos hc]
      obtain ⟨h1, h2, h3⟩ := ih a.first
      refine ⟨le_trans (le_of_lt hc.2) h1, ?_, ?_⟩
      · intro s hs hu
        rcases List.mem_cons.mp hs with e | hm
        · rw [e]; exact h1
        · exact h2 s hm hu
      · right
        rcases h3 with h3 | ⟨s, hs, hu, he⟩
        · exact ⟨a, List.mem_cons_self _ _, hc.1, h3.symm⟩
        · exact ⟨s, List.mem_cons_of_mem _ hs, hu, he⟩
    · rw [if_neg hc]
      obtain ⟨h1, h2, h3⟩ := ih m0
      refine ⟨h1, ?_, ?_⟩
      · intro s hs hu
        rcases List.mem_cons.mp hs with e | hm
        · rw [e]
          by_contra hlt
          exact hc ⟨e ▸ hu, lt_of_le_of_lt h1 (not_le.mp hlt)⟩
        · exact h2 s hm hu
      · rcases h3 with h3 | ⟨s, hs, hu, he⟩
        · exact Or.inl h3
        · exact Or.inr ⟨s, List.mem_cons_of_mem _ hs, hu, he⟩

/-- On a reachable table `max_entry ()` is at least zero and at least every
key of a used slot, and it is zero or the key of a used slot: it is the
largest stored key exactly when that key is not negative. -/
theorem max_entry_spec (d : Dict) (h : Reachable d) :
    0 ≤ max_entry d ∧
      (∀ i, (slot d.table i).used = true → (slot d.table i).first ≤ max_entry d) ∧
      (max_entry d = 0 ∨
        ∃ i, (slot d.table i).used = true ∧ (slot d.table i).first = max_entry d) := by
  obtain ⟨h1, h2, h3⟩ := max_fold_spec (span d.table d.table_first_entry d.table_last_entry) 0
  have hw := (reachable_WF d h).1
  refine ⟨h1, ?_, ?_⟩
  · intro i hi
    have hpos : 0 < d.table_used := by rw [hw.count]; exact used_countP_pos _ _ hi
    have b := reachable_Tracked d h hpos
    have hin := b.inside i hi
    refine h2 (slot d.table i) ?_ hi
    unfold span
    rw [List.mem_map]
    exact ⟨i, by rw [List.mem_range'_1]; omega, rfl⟩
  · rcases h3 with h3 | ⟨s, hs, hu, he⟩
    · exact Or.inl h3
    · right
      unfold span at hs
      rw [List.mem_map] at hs
      obtain ⟨i, _, rfl⟩ := hs
      exact ⟨i, hu, he⟩

/-! ## Runs on memory that `malloc` hands back with stale content -/

theorem reachableRaw_new_dict : ReachableRaw new_dict :=
  ReachableRaw.new (List.replicate MINSIZE fresh_item) (by simp)

/-- A returning `insert` under the zero-memory convention is a returning
`insert` on some block. -/
theorem insert_on_of_insert (fuel : Nat) (d d1 : Dict) (k : ℚ) (v : Int)
    (h : insert fuel d k v = some d1) : ∃ block, insert_on block fuel d k v = some d1 := by
  unfold insert at h
  cases hi : insert_key_val_pair fuel d k v with
  | none => simp [hi] at h
  | some d2 =>
    simp only [hi] at h
    by_cases hc : 3 * d2.table_used > 2 * d2.table_size
    · rw [if_pos hc] at h
      refine ⟨List.replicate
        (new_table_size ((d2.table_size * RESIZEFACTOR) % WORD) 64 MINSIZE) fresh_item, ?_⟩
      unfold insert_on
      simp only [hi]
      simp only [resize, malloc_table] at h
      by_cases hfit : new_table_size ((d2.table_size * RESIZEFACTOR) % WORD) 64 MINSIZE *
          SIZEOF_DICT_ITEM < WORD
      · rw [if_pos hc, if_pos ⟨by simp, by simpa using hfit⟩]
        rw [if_pos hfit] at h
        exact h
      · rw [if_neg hfit] at h
        simp at h
    · rw [if_neg hc] at h
      refine ⟨[], ?_⟩
      unfold insert_on
      simp only [hi]
      rw [if_neg hc]
      exact h

/-- The zero-memory convention is one of the memories that `malloc` may hand
back. -/
theorem reachableRaw_of_reachable (d : Dict) (h : Reachable d) : ReachableRaw d := by
  induction h with
  | new => exact reachableRaw_new_dict
  | ins fuel d d1 k v _ hi ih =>
    obtain ⟨block, hb⟩ := insert_on_of_insert fuel d d1 k v hi
    exact ReachableRaw.ins block fuel d d1 k v ih hb
  | del d k _ ih => exact ReachableRaw.del d k ih

/-- The array `stale_eight` is what `resize` frees in the sixth `insert` of
the keys 1 to 6 into a new table, and `stale_thirty_two` is the array of the
table after that insert. -/
theorem stale_blocks_arise :
    run 16 [Call.ins 1 10, Call.ins 2 20, Call.ins 3 30, Call.ins 4 40, Call.ins 5 50]
      new_dict = some table_five ∧
    insert_key_val_pair 16 table_five 6 60 = some table_six_full ∧
    table_six_full.table = stale_eight ∧
    insert 16 table_five 6 60 = some table_thirty_two ∧
    table_thirty_two.table = stale_thirty_two :=
  ⟨by decide!, by decide!, by decide!, by decide!, by decide!⟩

theorem insert_key_val_pair_size (fuel : Nat) (d d1 : Dict) (key : ℚ) (val : Int)
    (h : insert_key_val_pair fuel d key val = some d1) : d1.table_size = d.table_size := by
  unfold insert_key_val_pair at h
  cases hidx : find_insertion_idx fuel d key with
  | none => simp [hidx] at h
  | some idx =>
    simp only [hidx] at h
    split at h
    · simp only [Option.some.injEq] at h
      subst h
      exact track_size _ _
    · simp only [Option.some.injEq] at h
      subst h
      rfl

theorem reinsert_size (fuel : Nat) (l : List dict_item) :
    ∀ d d1 : Dict, reinsert fuel l d = some d1 → d1.table_size = d.table_size := by
  induction l with
  | nil =>
    intro d d1 h
    simp only [reinsert, Option.some.injEq] at h
    rw [h]
  | cons s rest ih =>
    intro d d1 h
    simp only [reinsert] at h
    by_cases hs : s.used = true
    · rw [if_pos hs] at h
      cases hi : insert_key_val_pair fuel d s.first s.second with
      | none => simp [hi] at h
      | some d2 =>
        simp only [hi] at h
        rw [ih d2 d1 h, insert_key_val_pair_size fuel d d2 _ _ hi]
    · rw [if_neg hs] at h
      exact ih d d1 h

theorem reinsert_unused (fuel : Nat) (l : List dict_item) (d : Dict)
    (h : ∀ s, s ∈ l → s.used = false) : reinsert fuel l d = some d := by
  induction l with
  | nil => rfl
  | cons s rest ih =>
    simp only [reinsert]
    rw [if_neg (by rw [h s (List.mem_cons_self _ _)]; exact Bool.false_ne_true)]
    exact ih (fun x hx => h x (List.mem_cons_of_mem _ hx))

/-- Under the zero-memory convention `resize` is `resize_on` the block of
`malloc_table`. -/
theorem resize_eq_resize_on (fuel : Nat) (d : Dict) (newsize : Nat) (t : List dict_item)
    (h : malloc_table (new_table_size newsize 64 MINSIZE) = some t) :
    resize fuel d newsize = resize_on t fuel d newsize := by
  simp only [resize, resize_on, h]

/-- C18: for a requested capacity `r` with `0 <= r <= 2 ^ 63` the size loop
of `resize` ends at the smallest power of two that is at least 8 and at least
`r`; every call `resize (dict, r, m)` that returns leaves that capacity in the
table, whatever the table was before and whatever block `malloc` handed back
(the multiplier `m` is not used by the source); and on a table without a used
slot between its bounds the call returns for every `r` of the range, every
block and every fuel. -/
theorem resize_capacity (r : Nat) (hr : r ≤ 2 ^ 63) :
    (∃ m, new_table_size r 64 MINSIZE = 2 ^ m ∧ 8 ≤ 2 ^ m ∧ r ≤ 2 ^ m ∧
      ∀ m', 8 ≤ 2 ^ m' → r ≤ 2 ^ m' → 2 ^ m ≤ 2 ^ m') ∧
    (∀ block fuel d d1, resize_on block fuel d r = some d1 →
      d1.table_size = new_table_size r 64 MINSIZE) ∧
    (∀ block fuel d,
      (∀ s, s ∈ span d.table d.table_first_entry d.table_last_entry → s.used = false) →
      ∃ d1, resize_on block fuel d r = some d1 ∧
        d1.table_size = new_table_size r 64 MINSIZE) ∧
    (∀ fuel d d1, resize fuel d r = some d1 →
      d1.table_size = new_table_size r 64 MINSIZE) := by
  refine ⟨?_, ?_, ?_, fun fuel d d1 h => resize_table_size fuel d d1 r hr h⟩
  · obtain ⟨m, hm3, _, hts, hge, hmin⟩ := new_table_size_minsize r hr
    refine ⟨m, hts, ?_, hge, ?_⟩
    · calc 8 = 2 ^ 3 := by norm_num
        _ ≤ 2 ^ m := Nat.pow_le_pow_right (by norm_num) hm3
    · intro m' h8 hr'
      rcases hmin with h3 | hlt
      · subst h3
        exact h8
      · have h1 : 2 ^ (m - 1) < 2 ^ m' := Nat.lt_of_lt_of_le hlt hr'
        have h2 : m - 1 < m' := (Nat.pow_lt_pow_iff_right (by norm_num)).mp h1
        exact Nat.pow_le_pow_right (by norm_num) (by omega)
  · intro block fuel d d1 h
    unfold resize_on at h
    exact reinsert_size fuel _ _ d1 h
  · intro block fuel d hall
    refine ⟨{ table := block
              table_size := new_table_size r 64 MINSIZE
              table_used := 0
              table_first_entry := new_table_size r 64 MINSIZE - 1
              table_last_entry := 0 }, ?_, rfl⟩
    unfold resize_on
    exact reinsert_unused fuel _ _ hall

/-- C18 at the largest request `2 ^ 63` on a new table, where the byte count
of the block wraps to zero, and at the request 20 on the table
`table_twice_five` with a block of 32 fresh slots. -/
theorem resize_capacity_witness :
    ((2 : Nat) ^ 63 ≤ 2 ^ 63 ∧ (20 : Nat) ≤ 2 ^ 63) ∧
      (∃ d1, resize_on [] 0 new_dict (2 ^ 63) = some d1 ∧ d1.table_size = 2 ^ 63) ∧
      (∃ d1, resize_on (List.replicate 32 fresh_item) 16 table_twice_five 20 = some d1 ∧
        d1.table_size = 32) := by
  have h63 : new_table_size (2 ^ 63) 64 MINSIZE = 2 ^ 63 := by decide
  have h20 : new_table_size 20 64 MINSIZE = 32 := by decide
  refine ⟨⟨Nat.le_refl _, by norm_num⟩, ?_, ?_⟩
  · obtain ⟨d1, h1, h2⟩ := (resize_capacity (2 ^ 63) (Nat.le_refl _)).2.2.1 [] 0 new_dict
      (by intro s hs; simp [span, new_dict, MINSIZE] at hs)
    exact ⟨d1, h1, by rw [h2, h63]⟩
  · cases hres : resize_on (List.replicate 32 fresh_item) 16 table_twice_five 20 with
    | none => exact absurd hres (by decide!)
    | some d1 =>
      exact ⟨d1, rfl, by
        rw [(resize_capacity 20 (by norm_num)).2.1 _ 16 table_twice_five d1 hres, h20]⟩


end CDict
